import Mathlib

/-!
Shallow embedding of src/RepRech/server.py: the ingestion pipeline of the
employer-rejection report tool (text repair, detail normalization, column
detection, fixed-width line parsing, key building, merge-insert) and the
pagination arithmetic of the query endpoint.  Python strings are modelled
as lists of characters and Python exceptions as the error case of Except.
-/

/-- Python strings are modelled as lists of Unicode characters. -/
abbrev Str := List Char

/-- Conversion from a Lean string literal to the model type. -/
def str (s : String) : Str := s.data

/-- Characters removed by Python str.strip: ASCII whitespace plus the
Latin-1 additions (NEL and no-break space), the repertoire relevant to
this code base. -/
def pyIsSpace (c : Char) : Bool :=
  c = ' ' || c = '\t' || c = '\n' || c = '\r' ||
  c.toNat = 11 || c.toNat = 12 || c.toNat = 0x85 || c.toNat = 0xA0

/-- Python str.strip: drop whitespace from both ends. -/
def pyStrip (s : Str) : Str :=
  ((s.dropWhile pyIsSpace).reverse.dropWhile pyIsSpace).reverse

/-- Canonical (NFD) decomposition of one character, as performed by
unicodedata.normalize.  The table covers the precomposed Latin letters
this application handles; characters outside it have no canonical
decomposition and map to themselves. -/
def nfd : Char → List Char
  | 'á' => ['a', '́'] | 'à' => ['a', '̀'] | 'â' => ['a', '̂']
  | 'ä' => ['a', '̈'] | 'ã' => ['a', '̃']
  | 'é' => ['e', '́'] | 'è' => ['e', '̀'] | 'ê' => ['e', '̂']
  | 'ë' => ['e', '̈']
  | 'í' => ['i', '́'] | 'ì' => ['i', '̀'] | 'î' => ['i', '̂']
  | 'ï' => ['i', '̈']
  | 'ó' => ['o', '́'] | 'ò' => ['o', '̀'] | 'ô' => ['o', '̂']
  | 'ö' => ['o', '̈'] | 'õ' => ['o', '̃']
  | 'ú' => ['u', '́'] | 'ù' => ['u', '̀'] | 'û' => ['u', '̂']
  | 'ü' => ['u', '̈']
  | 'ñ' => ['n', '̃'] | 'ç' => ['c', '̧']
  | 'ý' => ['y', '́'] | 'ÿ' => ['y', '̈']
  | 'Á' => ['A', '́'] | 'À' => ['A', '̀'] | 'Â' => ['A', '̂']
  | 'Ä' => ['A', '̈'] | 'Ã' => ['A', '̃']
  | 'É' => ['E', '́'] | 'È' => ['E', '̀'] | 'Ê' => ['E', '̂']
  | 'Ë' => ['E', '̈']
  | 'Í' => ['I', '́'] | 'Ì' => ['I', '̀'] | 'Î' => ['I', '̂']
  | 'Ï' => ['I', '̈']
  | 'Ó' => ['O', '́'] | 'Ò' => ['O', '̀'] | 'Ô' => ['O', '̂']
  | 'Ö' => ['O', '̈'] | 'Õ' => ['O', '̃']
  | 'Ú' => ['U', '́'] | 'Ù' => ['U', '̀'] | 'Û' => ['U', '̂']
  | 'Ü' => ['U', '̈']
  | 'Ñ' => ['N', '̃'] | 'Ç' => ['C', '̧'] | 'Ý' => ['Y', '́']
  | c => [c]

/-- Test for unicodedata.category _ == "Mn": the combining diacritical
marks block, which holds every mark produced by the table above. -/
def isMn (c : Char) : Bool := 0x300 ≤ c.toNat && c.toNat ≤ 0x36F

/-- Python str.lower on the Latin repertoire: ASCII capitals and the
precomposed capitals U+00C0..U+00DE (bar the multiplication sign) move
down by 32; every other character stays. -/
def pyLower (c : Char) : Char :=
  if 'A' ≤ c && c ≤ 'Z' then Char.ofNat (c.toNat + 32)
  else if 0xC0 ≤ c.toNat && c.toNat ≤ 0xDE && c.toNat ≠ 0xD7 then Char.ofNat (c.toNat + 32)
  else c

/-- normalize_detail from server.py: NFD-decompose, drop combining marks,
lower-case, then strip surrounding whitespace; empty input gives the
empty string. -/
def normalize_detail (text : Str) : Str :=
  if text = [] then []
  else pyStrip (((text.flatMap nfd).filter (fun c => !(isMn c))).map pyLower)

/-- Python str.encode latin-1: succeeds exactly when every character is
below U+0100, giving one byte per character; otherwise it raises
UnicodeEncodeError, modelled as none. -/
def latin1Encode (s : Str) : Option (List Nat) :=
  if s.all (fun c => c.toNat ≤ 0xFF) then some (s.map Char.toNat) else none

/-- Python bytes.decode utf-8: a strict UTF-8 decoder (continuation-byte
errors, overlong forms, surrogates and values beyond U+10FFFF all raise
UnicodeDecodeError, modelled as none). -/
def utf8Decode : List Nat → Option Str
  | [] => some []
  | b :: bs =>
    if b ≤ 0x7F then (utf8Decode bs).map (fun s => Char.ofNat b :: s)
    else if b < 0xC2 then none
    else if b ≤ 0xDF then
      match bs with
      | b1 :: bs2 =>
        if 0x80 ≤ b1 && b1 ≤ 0xBF then
          (utf8Decode bs2).map (fun s => Char.ofNat ((b - 0xC0) * 64 + (b1 - 0x80)) :: s)
        else none
      | [] => none
    else if b ≤ 0xEF then
      match bs with
      | b1 :: b2 :: bs3 =>
        if 0x80 ≤ b1 && b1 ≤ 0xBF && 0x80 ≤ b2 && b2 ≤ 0xBF then
          let code := (b - 0xE0) * 4096 + (b1 - 0x80) * 64 + (b2 - 0x80)
          if code < 0x800 || (0xD800 ≤ code && code ≤ 0xDFFF) then none
          else (utf8Decode bs3).map (fun s => Char.ofNat code :: s)
        else none
      | _ => none
    else if b ≤ 0xF4 then
      match bs with
      | b1 :: b2 :: b3 :: bs4 =>
        if 0x80 ≤ b1 && b1 ≤ 0xBF && 0x80 ≤ b2 && b2 ≤ 0xBF && 0x80 ≤ b3 && b3 ≤ 0xBF then
          let code := (b - 0xF0) * 262144 + (b1 - 0x80) * 4096 + (b2 - 0x80) * 64 + (b3 - 0x80)
          if code < 0x10000 || code > 0x10FFFF then none
          else (utf8Decode bs4).map (fun s => Char.ofNat code :: s)
        else none
      | _ => none
    else none

/-- fix_text from server.py.  The corruption-marker test is the literal
triple test of the source (three occurrences of the same ASCII question
mark).  The latin-1 re-encode raises UnicodeEncodeError on characters
above U+00FF; the source catches only UnicodeDecodeError, so an encode
failure escapes as an exception, modelled by the error case. -/
def fix_text (value : Str) : Except Unit Str :=
  if value = [] then .ok []
  else if value.contains '?' || value.contains '?' || value.contains '?' then
    match latin1Encode value with
    | none => .error ()
    | some bytes =>
      match utf8Decode bytes with
      | none => .ok value
      | some decoded => .ok decoded
  else .ok value

/-- COLUMNS from server.py. -/
def COLUMNS : List Str :=
  [str ("EmpRUC"), str ("EmpRazonSocial"), str ("EmpNom"), str ("RepFecha"),
   str ("RepLiqEstadoConsulta"), str ("RepDetalleRechazo")]

/-- FALLBACK_POSITIONS from server.py. -/
def FALLBACK_POSITIONS : List Nat := [0, 12, 124, 165, 189, 209]

/-- IGNORED_DETAIL_PREFIXES_RAW from server.py, with its two ó
escapes written out. -/
def IGNORED_DETAIL_PREFIXES_RAW : List Str :=
  [str ("En la fecha de resumen del reporte la condición de emisor electrónico no estaba vigente")]

/-- IGNORED_DETAIL_PREFIXES from server.py: the raw entries, normalized. -/
def IGNORED_DETAIL_PREFIXES : List Str :=
  IGNORED_DETAIL_PREFIXES_RAW.map normalize_detail

/-- Scanning loop of Python str.find: try each offset left to right. -/
def findSubAux (needle : Str) : Str → Nat → Option Nat
  | [], i => if needle.isPrefixOf [] then some i else none
  | c :: t, i => if needle.isPrefixOf (c :: t) then some i else findSubAux needle t (i + 1)

/-- Python str.find: the smallest offset at which the needle occurs in the
haystack, none when it is absent. -/
def findSub (needle hay : Str) : Option Nat :=
  findSubAux needle hay 0

/-- Loop body of detect_column_positions: accumulate offsets in label
order and bail out to the fallback as soon as one label is missing. -/
def detectAux (header : Str) : List Str → List Nat → List Nat
  | [], positions => positions
  | label :: rest, positions =>
    match findSub label header with
    | none => FALLBACK_POSITIONS
    | some index => detectAux header rest (positions ++ [index])

/-- detect_column_positions from server.py. -/
def detect_column_positions (header : Str) : List Nat :=
  detectAux header COLUMNS []

/-- One candidate record: the six parsed field values, in COLUMNS order. -/
structure Rec where
  EmpRUC : Str
  EmpRazonSocial : Str
  EmpNom : Str
  RepFecha : Str
  RepLiqEstadoConsulta : Str
  RepDetalleRechazo : Str
  deriving DecidableEq, Repr

/-- The six field values of a record, in COLUMNS order. -/
def recFields (record : Rec) : List Str :=
  [record.EmpRUC, record.EmpRazonSocial, record.EmpNom, record.RepFecha,
   record.RepLiqEstadoConsulta, record.RepDetalleRechazo]

/-- build_key from server.py: join the six trimmed field values with the
double-pipe delimiter. -/
def build_key (record : Rec) : Str :=
  List.intercalate (str ("||")) ((recFields record).map pyStrip)

/-- One field slice of a data line: from the column start to the next
column start (end of line for the last column); a start beyond the end
of the line yields the empty slice. -/
def sliceAt (line : Str) (start fin : Nat) : Str :=
  if start ≥ line.length then [] else (line.drop start).take (fin - start)

/-- Slice loop of parse_fixed_width_line: trim and repair each slice in
column order (a text-repair exception aborts the whole line). -/
def sliceValues (line : Str) : List Nat → Except Unit (List Str)
  | [] => .ok []
  | start :: rest => do
    let fin := match rest with | [] => line.length | next :: _ => next
    let v ← fix_text (pyStrip (sliceAt line start fin))
    let vs ← sliceValues line rest
    return v :: vs

/-- Record built from the value list, padding missing trailing columns
with the empty string, as the dict comprehension in the source does. -/
def recOfValues (values : List Str) : Rec :=
  { EmpRUC := values.getD 0 [], EmpRazonSocial := values.getD 1 [],
    EmpNom := values.getD 2 [], RepFecha := values.getD 3 [],
    RepLiqEstadoConsulta := values.getD 4 [], RepDetalleRechazo := values.getD 5 [] }

/-- parse_fixed_width_line from server.py: slice the line at the given
positions, repair each value, and drop the line (result none) when there
are no values or the first value is empty. -/
def parse_fixed_width_line (line : Str) (positions : List Nat) : Except Unit (Option Rec) := do
  let values ← sliceValues line positions
  if values = [] || values.headI = [] then return none
  return some (recOfValues values)

/-- Python str.split with a one-character separator, as used on the date
candidate. -/
def splitOnChar (sep : Char) : Str → List Str
  | [] => [[]]
  | c :: cs =>
    match splitOnChar sep cs with
    | [] => [[]]
    | h :: t => if c = sep then [] :: h :: t else (c :: h) :: t

/-- extract_date from server.py: empty input gives none; otherwise take
the first ten characters of the stripped string and require exactly ten
characters, a three-way split on the dash, and a four-character year. -/
def extract_date (rep_fecha : Str) : Option Str :=
  if rep_fecha = [] then none
  else
    let candidate := (pyStrip rep_fecha).take 10
    if candidate.length ≠ 10 then none
    else
      match splitOnChar '-' candidate with
      | [year, _, _] => if year.length ≠ 4 then none else some candidate
      | _ => none

/-- One persisted row of the rows table.  The sources column holds a JSON
list in the store; the JSON round trip at the storage boundary is
modelled as the identity on the decoded list of labels. -/
structure Row where
  id : Str
  EmpRUC : Str
  EmpRazonSocial : Str
  EmpNom : Str
  RepFecha : Str
  RepFechaDate : Option Str
  RepLiqEstadoConsulta : Str
  RepDetalleRechazo : Str
  detail_normalized : Str
  resolved : Bool
  sources : List Str
  created_at : Nat
  deriving DecidableEq, Repr

/-- The rows table, in rowid (insertion) order. -/
abbrev Store := List Row

/-- Store well-formedness: the id column is declared PRIMARY KEY, so the
store never holds two rows with the same id. -/
def StoreWF (st : Store) : Prop := (st.map Row.id).Nodup

/-- Accumulator loop behind chunked: collect elements of the current
chunk (reversed) until the budget runs out, then emit it and start the
next chunk. -/
def chunkedGo (sizePred : Nat) : Nat → List Str → List Str → List (List Str)
  | _, acc, [] => [acc.reverse]
  | 0, acc, x :: xs => acc.reverse :: chunkedGo sizePred sizePred [x] xs
  | budget + 1, acc, x :: xs => chunkedGo sizePred budget (x :: acc) xs

/-- chunked from server.py, specialised to positive chunk sizes: the
argument is the predecessor of the real chunk size (the source only
calls it with size 500), and the slice loop of the source is phrased as
a structurally recursive accumulator loop with the same result. -/
def chunked (sizePred : Nat) (l : List Str) : List (List Str) :=
  match l with
  | [] => []
  | x :: xs => chunkedGo sizePred sizePred [x] xs

/-- Python dict with string keys as built by the key-lookup loop: later
assignments win, so lookup scans from the most recent entry. -/
abbrev Dict := List (Str × List Str)

/-- Dict lookup, latest assignment first. -/
def dictFind (d : Dict) (k : Str) : Option (List Str) :=
  (d.reverse.find? (fun p => decide (p.1 = k))).map Prod.snd

/-- Key-existence query of insert_records: for each chunk of keys, fetch
the id and sources of the matching rows in store order and assign them
into the dict. -/
def buildExisting (st : Store) (chunks : List (List Str)) : Dict :=
  chunks.foldl
    (fun d chunk =>
      d ++ (st.filter (fun row => decide (row.id ∈ chunk))).map
        (fun row => (row.id, row.sources)))
    []

/-- Row inserted for a fresh key: the tuple appended to inserts in
insert_records (resolved defaults to false in the table schema). -/
def mkRow (record : Rec) (key dn : Str) (source : Str) (createdAt : Nat) : Row :=
  { id := key, EmpRUC := record.EmpRUC, EmpRazonSocial := record.EmpRazonSocial,
    EmpNom := record.EmpNom, RepFecha := record.RepFecha,
    RepFechaDate := extract_date record.RepFecha,
    RepLiqEstadoConsulta := record.RepLiqEstadoConsulta,
    RepDetalleRechazo := record.RepDetalleRechazo,
    detail_normalized := dn, resolved := false,
    sources := [source], created_at := createdAt }

/-- Outcome of the preparation loop for one record. -/
inductive PrepOut
  | ignored
  | dropped
  | kept (record : Rec) (key : Str) (dn : Str)
  deriving DecidableEq, Repr

/-- Per-record repair step of insert_records: the detail field is
repaired first and written back over the repaired column map, exactly as
in the source (whose comprehension repairs the detail a second time); a
repair exception aborts the whole call. -/
def fixRec (record : Rec) : Except Unit Rec := do
  let detail ← fix_text record.RepDetalleRechazo
  let ruc ← fix_text record.EmpRUC
  let razon ← fix_text record.EmpRazonSocial
  let nom ← fix_text record.EmpNom
  let fecha ← fix_text record.RepFecha
  let estado ← fix_text record.RepLiqEstadoConsulta
  let _ ← fix_text record.RepDetalleRechazo
  return { EmpRUC := ruc, EmpRazonSocial := razon, EmpNom := nom, RepFecha := fecha,
           RepLiqEstadoConsulta := estado, RepDetalleRechazo := detail }

/-- Preparation of one record in insert_records: repair, normalize the
detail, count ignorable details, silently drop empty keys, and keep the
rest with their key and normalized detail. -/
def prepareStep (record : Rec) : Except Unit PrepOut := do
  let fixed ← fixRec record
  let dn := normalize_detail fixed.RepDetalleRechazo
  if IGNORED_DETAIL_PREFIXES.any (fun p => p.isPrefixOf dn) then
    return PrepOut.ignored
  else
    let key := build_key fixed
    if key = [] then return PrepOut.dropped
    else return PrepOut.kept fixed key dn

/-- Preparation loop of insert_records: the kept (record, key,
normalized-detail) triples in batch order together with the ignored
count. -/
def prepareLoop : List Rec → Except Unit (List (Rec × Str × Str) × Nat)
  | [] => .ok ([], 0)
  | record :: rest => do
    let out ← prepareStep record
    let (ps, ign) ← prepareLoop rest
    match out with
    | PrepOut.ignored => return (ps, ign + 1)
    | PrepOut.dropped => return (ps, ign)
    | PrepOut.kept fixed key dn => return ((fixed, key, dn) :: ps, ign)

/-- Main loop of insert_records over the prepared triples: counts added
and duplicate records and collects the source-merge updates and the
insert tuples, reading key existence from the dict fetched up front
(which is never refreshed during the loop). -/
def mergeLoop (existing : Dict) (source : Str) (now : Nat) :
    List (Rec × Str × Str) → Nat → Nat × Nat × List (Str × List Str) × List Row
  | [], _ => (0, 0, [], [])
  | (record, key, dn) :: rest, index =>
    match dictFind existing key with
    | some sources0 =>
      let (a, d, us, ins) := mergeLoop existing source now rest (index + 1)
      if source ∈ sources0 then (a, d + 1, us, ins)
      else (a, d + 1, (key, sources0 ++ [source]) :: us, ins)
    | none =>
      let (a, d, us, ins) := mergeLoop existing source now rest (index + 1)
      (a + 1, d, us, mkRow record key dn source (now + index) :: ins)

/-- Apply the UPDATE statements (set sources where id matches) in order. -/
def applyUpdates (st : Store) : List (Str × List Str) → Store
  | [] => st
  | (key, srcs) :: rest =>
    applyUpdates
      (st.map (fun row => if row.id = key then { row with sources := srcs } else row)) rest

/-- Apply the INSERT statements in order; inserting an id that is already
present violates the primary-key constraint (IntegrityError, modelled as
the error case). -/
def applyInserts (st : Store) : List Row → Except Unit Store
  | [] => .ok st
  | row :: rest =>
    if st.any (fun r0 => decide (r0.id = row.id)) then .error ()
    else applyInserts (st ++ [row]) rest

/-- insert_records from server.py.  The connection-level transaction is
modelled by the Except result: an error means the transaction was never
committed, so the caller keeps the untouched store.  now stands for the
millisecond timestamp taken at the start of the call. -/
def insert_records (st : Store) (records : List Rec) (source : Str) (now : Nat) :
    Except Unit (Store × Nat × Nat × Nat) := do
  if records = [] then return (st, 0, 0, 0)
  else
    let (prepared, ignored) ← prepareLoop records
    if prepared = [] then return (st, 0, 0, ignored)
    else
      let keys := prepared.map (fun p => p.2.1)
      let existing := buildExisting st (chunked 499 keys)
      let (added, duplicates, updates, inserts) := mergeLoop existing source now prepared 0
      let st2 ← applyInserts (applyUpdates st updates) inserts
      return (st2, added, duplicates, ignored)

/-- One SQL statement issued inside the merge transaction. -/
inductive SqlOp
  | updateSources (key : Str) (srcs : List Str)
  | insertMany (rows : List Row)
  deriving DecidableEq, Repr

/-- One event on the connection: a statement execution or the final
commit. -/
inductive TxOp
  | exec (op : SqlOp)
  | commit
  deriving DecidableEq, Repr

/-- Effect of one statement on the uncommitted (pending) store. -/
def applySqlOp (pending : Store) : SqlOp → Except Unit Store
  | SqlOp.updateSources key srcs =>
    .ok (pending.map (fun row => if row.id = key then { row with sources := srcs } else row))
  | SqlOp.insertMany rows => applyInserts pending rows

/-- Transaction semantics of the sqlite connection: statements act on the
pending store, only commit publishes the pending store as the committed
one, and a failing statement ends the run with the committed store
unchanged (closing without commit rolls back). -/
def runTxn (committed pending : Store) : List TxOp → Store
  | [] => committed
  | TxOp.exec op :: rest =>
    match applySqlOp pending op with
    | .ok p2 => runTxn committed p2 rest
    | .error _ => committed
  | TxOp.commit :: rest => runTxn pending pending rest

/-- Committed store visible after running a list of connection events
against a store. -/
def visible (st : Store) (trace : List TxOp) : Store := runTxn st st trace

/-- Statement trace of one insert_records call: no statements at all when
the call returns before touching the connection (empty batch, empty
prepared list, or a repair exception); otherwise the UPDATE statements
in loop order, the executemany INSERT when there is something to insert,
and the single final commit. -/
def mergeTrace (st : Store) (records : List Rec) (source : Str) (now : Nat) : List TxOp :=
  if records = [] then []
  else
    match prepareLoop records with
    | .error _ => []
    | .ok (prepared, _) =>
      if prepared = [] then []
      else
        let keys := prepared.map (fun p => p.2.1)
        let existing := buildExisting st (chunked 499 keys)
        let (_, _, updates, inserts) := mergeLoop existing source now prepared 0
        (updates.map (fun u => TxOp.exec (SqlOp.updateSources u.1 u.2))) ++
          (if inserts = [] then [] else [TxOp.exec (SqlOp.insertMany inserts)]) ++
          [TxOp.commit]

/-- Pagination arithmetic of api_rows.  A parameter is none when it is
absent from the query string or when int raised ValueError (both give
the default).  total is the filtered row count.  The result is the
effective (page, page_size, total_pages). -/
def effectivePaging (pageParam pageSizeParam : Option Int) (total : Nat) : Int × Int × Int :=
  let page0 := max 1 (pageParam.getD 1)
  let pageSize := max 1 (min (pageSizeParam.getD 20) 200)
  let totalPages : Int :=
    if total ≠ 0 then max 1 (((total : Int) + pageSize - 1) / pageSize) else 1
  let page := if page0 > totalPages then totalPages else page0
  (page, pageSize, totalPages)

/-- One serialized row of the api_rows payload. -/
structure PayloadRow where
  id : Str
  EmpRUC : Str
  EmpRazonSocial : Str
  EmpNom : Str
  RepFecha : Str
  RepLiqEstadoConsulta : Str
  RepDetalleRechazo : Str
  resolved : Bool
  sources : List Str
  rep_date : Option Str
  deriving DecidableEq, Repr

/-- Row serialization of api_rows: the six record columns and every
sources entry go through fix_text; id, resolved and rep_date are passed
through as stored. -/
def serializeRow (row : Row) : Except Unit PayloadRow := do
  let ruc ← fix_text row.EmpRUC
  let razon ← fix_text row.EmpRazonSocial
  let nom ← fix_text row.EmpNom
  let fecha ← fix_text row.RepFecha
  let estado ← fix_text row.RepLiqEstadoConsulta
  let detalle ← fix_text row.RepDetalleRechazo
  let srcs ← row.sources.mapM fix_text
  return { id := row.id, EmpRUC := ruc, EmpRazonSocial := razon, EmpNom := nom,
           RepFecha := fecha, RepLiqEstadoConsulta := estado, RepDetalleRechazo := detalle,
           resolved := row.resolved, sources := srcs, rep_date := row.RepFechaDate }

/-- Shape the claim demands of the ten date characters: digits in the
year, month and day positions, dashes exactly at offsets 4 and 7. -/
def claimedDateShape (c : Str) : Bool :=
  c.length = 10 &&
    (List.range 10).all (fun i =>
      if i = 4 || i = 7 then c.getD i ' ' = '-' else (c.getD i ' ').isDigit)

/-- Concrete header holding all six labels, for the witness. -/
def headerFull : Str :=
  str ("EmpRUC      EmpRazonSocial      EmpNom   RepFecha   RepLiqEstadoConsulta   RepDetalleRechazo")

/-- Kept (record, key, detail) triple of a record, when preparation keeps it. -/
def keptTriple (record : Rec) : Option (Rec × Str × Str) :=
  match prepareStep record with
  | Except.ok (PrepOut.kept fixed key dn) => some (fixed, key, dn)
  | _ => none

/-- Whether preparation counts a record as ignored. -/
def isIgnoredRec (record : Rec) : Bool :=
  match prepareStep record with
  | Except.ok PrepOut.ignored => true
  | _ => false

/-- One UPDATE statement applied to one row. -/
def updOne (row : Row) (u : Str × List Str) : Row :=
  if row.id = u.1 then { row with sources := u.2 } else row

/-- Concrete record, rows and labels for the duplicate-merge scenario. -/
def rec7 : Rec :=
  { EmpRUC := str ("20123456789"), EmpRazonSocial := str ("ACME SA"),
    EmpNom := str ("ACME"), RepFecha := str ("2023-05-01"),
    RepLiqEstadoConsulta := str ("OK"), RepDetalleRechazo := str ("detalle rechazo x") }

/-- Row stored for rec7 after the first upload. -/
def row7A : Row := mkRow rec7 (build_key rec7) (str ("detalle rechazo x")) (str ("A")) 0

/-- Same row after the upload from the second file. -/
def row7AB : Row := { row7A with sources := [str ("A"), str ("B")] }

/-- Second concrete record, with a different tax id. -/
def rec7b : Rec := { rec7 with EmpRUC := str ("20999999999") }

/-- Record whose detail is a casing and accenting variant of the
ignorable prefix. -/
def recIgn : Rec :=
  { EmpRUC := str ("20777777777"), EmpRazonSocial := str ("G SA"),
    EmpNom := str ("G"), RepFecha := str ("2023-07-01"),
    RepLiqEstadoConsulta := str ("OK"),
    RepDetalleRechazo :=
      str ("EN LA FECHA DE RESUMEN DEL REPORTE LA CONDICION DE EMISOR ELECTRÓNICO NO ESTABA VIGENTE: detalle") }

/-- Store contents after ingesting rec7 and rec7b on top of row7A. -/
def stC1 : Store :=
  [row7A, mkRow rec7b (build_key rec7b) (str ("detalle rechazo x")) (str ("A")) 11]

/-- Stored row holding one mojibake field, for the read-side repair witness. -/
def rowW : Row := { row7A with EmpNom := str ("?Ã©") }

/-- Payload serialized from rowW: the mojibake field comes back repaired. -/
def payW : PayloadRow :=
  { id := rowW.id, EmpRUC := rowW.EmpRUC, EmpRazonSocial := rowW.EmpRazonSocial,
    EmpNom := str ("?é"), RepFecha := rowW.RepFecha,
    RepLiqEstadoConsulta := rowW.RepLiqEstadoConsulta,
    RepDetalleRechazo := rowW.RepDetalleRechazo, resolved := rowW.resolved,
    sources := [str ("A")], rep_date := rowW.RepFechaDate }

/-! Basic lemmas about the split, chunk and key helpers. -/

theorem splitOnChar_ne_nil (sep : Char) (l : Str) : splitOnChar sep l ≠ [] := by
  cases l with
  | nil => simp [splitOnChar]
  | cons c cs =>
    rcases h : splitOnChar sep cs with _ | ⟨h1, t1⟩
    · simp [splitOnChar, h]
    · simp only [splitOnChar, h]
      split <;> simp

theorem length_splitOnChar (sep : Char) (l : Str) :
    (splitOnChar sep l).length = l.count sep + 1 := by
  induction l with
  | nil => simp [splitOnChar]
  | cons c cs ih =>
    rcases h : splitOnChar sep cs with _ | ⟨h1, t1⟩
    · exact absurd h (splitOnChar_ne_nil sep cs)
    · rw [h] at ih
      simp only [splitOnChar, h]
      by_cases hc : c = sep
      · simp [hc, List.count_cons]
        simp at ih
        omega
      · simp [hc, List.count_cons]
        simp at ih
        omega

theorem headI_splitOnChar (sep : Char) (l : Str) :
    (splitOnChar sep l).headI = l.takeWhile (fun c => !decide (c = sep)) := by
  induction l with
  | nil => simp [splitOnChar]
  | cons c cs ih =>
    rcases h : splitOnChar sep cs with _ | ⟨h1, t1⟩
    · exact absurd h (splitOnChar_ne_nil sep cs)
    · rw [h] at ih
      simp only [splitOnChar, h]
      by_cases hc : c = sep
      · simp [hc, List.takeWhile]
      · simp [hc, List.takeWhile]
        simp [List.headI] at ih
        exact ih

theorem chunkedGo_flatten (sizePred : Nat) (rest : List Str) :
    ∀ (b : Nat) (acc : List Str),
      (chunkedGo sizePred b acc rest).flatten = acc.reverse ++ rest := by
  induction rest with
  | nil => intro b acc; simp [chunkedGo]
  | cons x xs ih =>
    intro b acc
    cases b with
    | zero => simp [chunkedGo, ih]
    | succ b => simp [chunkedGo, ih]

theorem chunked_flatten (sizePred : Nat) (l : List Str) :
    (chunked sizePred l).flatten = l := by
  cases l with
  | nil => simp [chunked]
  | cons x xs => simp [chunked, chunkedGo_flatten]

theorem build_key_ne_nil (record : Rec) : build_key record ≠ [] := by
  intro h
  have hlen := congrArg List.length h
  simp [build_key, recFields, List.intercalate, List.intersperse, str] at hlen

theorem extract_date_iff (s c : Str) :
    extract_date s = some c ↔
      s ≠ [] ∧ c = (pyStrip s).take 10 ∧ c.length = 10 ∧
      c.count '-' = 2 ∧ (c.takeWhile (fun ch => !decide (ch = '-'))).length = 4 := by
  unfold extract_date
  by_cases hs : s = []
  · simp [hs]
  · simp only [hs, if_false, ne_eq, not_false_iff, true_and]
    by_cases hlen : ((pyStrip s).take 10).length = 10
    · simp only [hlen, ne_eq, not_true_eq_false, if_false]
      have hcount := length_splitOnChar '-' ((pyStrip s).take 10)
      have hhead := headI_splitOnChar '-' ((pyStrip s).take 10)
      rcases hsp : splitOnChar '-' ((pyStrip s).take 10) with _ | ⟨y, _ | ⟨m, _ | ⟨d, _ | ⟨e, rest⟩⟩⟩⟩
      · exact absurd hsp (splitOnChar_ne_nil _ _)
      · rw [hsp] at hcount
        simp at hcount
        constructor
        · intro h
          exact absurd h (by simp)
        · rintro ⟨hc, -, hccount, -⟩
          rw [hc] at hccount
          omega
      · rw [hsp] at hcount
        simp at hcount
        constructor
        · intro h
          exact absurd h (by simp)
        · rintro ⟨hc, -, hccount, -⟩
          rw [hc] at hccount
          omega
      · rw [hsp] at hcount hhead
        simp at hcount hhead
        by_cases hy : y.length = 4
        · simp only [hy, ne_eq, not_true_eq_false, if_false]
          constructor
          · intro h
            have hc : c = (pyStrip s).take 10 := by
              exact ((Option.some.injEq _ _).mp h).symm
            subst hc
            refine ⟨rfl, hlen, by omega, ?_⟩
            rw [← hhead, hy]
          · rintro ⟨hc, -, -, -⟩
            rw [hc]
        · simp only [hy, ne_eq, not_false_iff, if_true]
          constructor
          · intro h
            exact absurd h (by simp)
          · rintro ⟨hc, -, -, htake⟩
            subst hc
            rw [← hhead] at htake
            exact absurd htake hy
      · rw [hsp] at hcount
        simp at hcount
        constructor
        · intro h
          exact absurd h (by simp)
        · rintro ⟨hc, -, hccount, -⟩
          rw [hc] at hccount
          omega
    · simp only [hlen, ne_eq, not_false_iff, if_true]
      constructor
      · intro h
        exact absurd h (by simp)
      · rintro ⟨hc, hclen, -⟩
        rw [hc] at hclen
        exact absurd hclen hlen

/-! Lemmas about findSub and detect_column_positions. -/

theorem findSubAux_isSome (needle : Str) :
    ∀ (hay : Str) (i : Nat),
      (findSubAux needle hay i).isSome ↔ ∃ j, needle.isPrefixOf (hay.drop j) := by
  intro hay
  induction hay with
  | nil =>
    intro i
    by_cases h : needle.isPrefixOf [] <;> simp [findSubAux, h]
  | cons c t ih =>
    intro i
    by_cases h : needle.isPrefixOf (c :: t)
    · simp [findSubAux, h]
      exact ⟨0, by simpa using h⟩
    · rw [show findSubAux needle (c :: t) i = findSubAux needle t (i + 1) by
        simp [findSubAux, h]]
      rw [ih (i + 1)]
      constructor
      · rintro ⟨j, hj⟩
        exact ⟨j + 1, by simpa using hj⟩
      · rintro ⟨j, hj⟩
        cases j with
        | zero => exact absurd (by simpa using hj) h
        | succ j => exact ⟨j, by simpa using hj⟩

theorem findSubAux_some (needle : Str) :
    ∀ (hay : Str) (i k : Nat), findSubAux needle hay i = some k →
      i ≤ k ∧ needle.isPrefixOf (hay.drop (k - i)) ∧
        ∀ j < k - i, ¬ needle.isPrefixOf (hay.drop j) := by
  intro hay
  induction hay with
  | nil =>
    intro i k h
    by_cases hp : needle.isPrefixOf []
    · simp [findSubAux, hp] at h
      subst h
      refine ⟨le_refl _, by simpa using hp, ?_⟩
      intro j hj
      omega
    · simp [findSubAux, hp] at h
  | cons c t ih =>
    intro i k h
    by_cases hp : needle.isPrefixOf (c :: t)
    · simp [findSubAux, hp] at h
      subst h
      refine ⟨le_refl _, by simpa using hp, ?_⟩
      intro j hj
      omega
    · rw [show findSubAux needle (c :: t) i = findSubAux needle t (i + 1) by
        simp [findSubAux, hp]] at h
      obtain ⟨hik, hpre, hmin⟩ := ih (i + 1) k h
      refine ⟨by omega, ?_, ?_⟩
      · have heq : k - i = (k - (i + 1)) + 1 := by omega
        rw [heq]
        simpa using hpre
      · intro j hj
        cases j with
        | zero => simpa using hp
        | succ j =>
          have hlt : j < k - (i + 1) := by omega
          simpa using hmin j hlt

theorem findSub_some (needle hay : Str) (k : Nat) (h : findSub needle hay = some k) :
    needle.isPrefixOf (hay.drop k) ∧ ∀ j < k, ¬ needle.isPrefixOf (hay.drop j) := by
  obtain ⟨-, hpre, hmin⟩ := findSubAux_some needle hay 0 k h
  exact ⟨hpre, hmin⟩

theorem infix_iff_exists_drop (needle hay : Str) :
    needle <:+: hay ↔ ∃ i, needle <+: hay.drop i := by
  constructor
  · rintro ⟨s, t, rfl⟩
    refine ⟨s.length, ?_⟩
    rw [List.drop_append_eq_append_drop]
    simp
  · rintro ⟨i, t, ht⟩
    refine ⟨hay.take i, t, ?_⟩
    rw [List.append_assoc, ht, List.take_append_drop]

theorem findSub_isSome_iff_occurs (needle hay : Str) :
    (findSub needle hay).isSome ↔ needle <:+: hay := by
  rw [findSub, findSubAux_isSome, infix_iff_exists_drop]
  constructor
  · rintro ⟨j, hj⟩
    exact ⟨j, List.isPrefixOf_iff_prefix.mp hj⟩
  · rintro ⟨j, hj⟩
    exact ⟨j, List.isPrefixOf_iff_prefix.mpr hj⟩

theorem detectAux_found (header : Str) :
    ∀ (labels : List Str) (acc : List Nat),
      (∀ l ∈ labels, ∃ k, findSub l header = some k) →
      ∃ offs, detectAux header labels acc = acc ++ offs ∧
        List.Forall₂
          (fun (label : Str) (k : Nat) =>
            label <+: header.drop k ∧ ∀ j < k, ¬ label <+: header.drop j)
          labels offs := by
  intro labels
  induction labels with
  | nil =>
    intro acc h
    exact ⟨[], by simp [detectAux], List.Forall₂.nil⟩
  | cons l rest ih =>
    intro acc h
    obtain ⟨k, hk⟩ := h l (by simp)
    obtain ⟨offs, heq, hfa⟩ := ih (acc ++ [k]) (fun l' hl' => h l' (by simp [hl']))
    refine ⟨k :: offs, ?_, ?_⟩
    · simp only [detectAux, hk]
      rw [heq, List.append_assoc]
      simp
    · obtain ⟨hpre, hmin⟩ := findSub_some l header k hk
      exact List.Forall₂.cons
        ⟨List.isPrefixOf_iff_prefix.mp hpre,
         fun j hj hpj => hmin j hj (List.isPrefixOf_iff_prefix.mpr hpj)⟩ hfa

theorem detectAux_fallback (header : Str) :
    ∀ (labels : List Str) (acc : List Nat),
      (∃ l ∈ labels, findSub l header = none) →
      detectAux header labels acc = FALLBACK_POSITIONS := by
  intro labels
  induction labels with
  | nil =>
    intro acc h
    simp at h
  | cons l rest ih =>
    intro acc h
    rcases hf : findSub l header with _ | k
    · simp [detectAux, hf]
    · simp only [detectAux, hf]
      obtain ⟨l', hl', hnone⟩ := h
      rcases List.mem_cons.mp hl' with heq | hmem
      · subst heq
        rw [hf] at hnone
        simp at hnone
      · exact ih (acc ++ [k]) ⟨l', hmem, hnone⟩

/-- Claim C3, as stated, fails on the code: the ten-character candidate
2023-5-100 does not have the claimed YYYY-MM-DD shape (its second dash
sits at offset 6 and a digit is demanded at offset 4), yet extract_date
accepts it. -/
theorem claim_C3_counterexample :
    extract_date (str ("2023-5-100")) = some (str ("2023-5-100")) ∧
      claimedDateShape (str ("2023-5-100")) = false := by
  constructor
  · rfl
  · rfl

/-- Claim C3 (amended): rep_date is the first ten characters of the
trimmed report-date-string exactly when the input is nonempty, those ten
characters exist, contain exactly two dashes, and the run before the
first dash (the year field) has four characters; digit content and the
exact position of the second dash are not checked.  The three spec
examples hold as stated. -/
theorem claim_C3_amended :
    (∀ s c : Str,
      extract_date s = some c ↔
        s ≠ [] ∧ c = (pyStrip s).take 10 ∧ c.length = 10 ∧
        c.count '-' = 2 ∧ (c.takeWhile (fun ch => !decide (ch = '-'))).length = 4) ∧
    extract_date (str ("2023-05-01 extra")) = some (str ("2023-05-01")) ∧
    extract_date (str ("05/2023")) = none ∧
    extract_date (str ("2023-5-1")) = none := by
  refine ⟨extract_date_iff, by decide, by decide, by decide⟩

/-- Claim C5: when every column label occurs in the header line,
detect_column_positions returns, in label order, the first-occurrence
offset of each label; when at least one label is missing, it returns the
complete hard-coded fallback layout. -/
theorem claim_C5_column_layout (header : Str) :
    ((∀ label ∈ COLUMNS, label <:+: header) →
      List.Forall₂
        (fun (label : Str) (k : Nat) =>
          label <+: header.drop k ∧ ∀ j < k, ¬ label <+: header.drop j)
        COLUMNS (detect_column_positions header)) ∧
    ((∃ label ∈ COLUMNS, ¬ label <:+: header) →
      detect_column_positions header = FALLBACK_POSITIONS) := by
  constructor
  · intro h
    have hex : ∀ l ∈ COLUMNS, ∃ k, findSub l header = some k := by
      intro l hl
      exact Option.isSome_iff_exists.mp
        ((findSub_isSome_iff_occurs l header).mpr (h l hl))
    obtain ⟨offs, heq, hfa⟩ := detectAux_found header COLUMNS [] hex
    rw [detect_column_positions, heq]
    simpa using hfa
  · rintro ⟨l, hl, hnin⟩
    apply detectAux_fallback
    refine ⟨l, hl, ?_⟩
    rcases hf : findSub l header with _ | k
    · rfl
    · exact absurd ((findSub_isSome_iff_occurs l header).mp (by simp [hf])) hnin

set_option maxRecDepth 4000 in
theorem claim_C5_witness :
    List.Forall₂
      (fun (label : Str) (k : Nat) =>
        label <+: headerFull.drop k ∧ ∀ j < k, ¬ label <+: headerFull.drop j)
      COLUMNS (detect_column_positions headerFull) ∧
    detect_column_positions (str ("X")) = FALLBACK_POSITIONS :=
  ⟨(claim_C5_column_layout headerFull).1 (by decide),
   (claim_C5_column_layout (str ("X"))).2 (by decide)⟩

/-! Pagination, serialization and the text-repair exception. -/

theorem bind_ok_inv {α β : Type} (x : Except Unit α) (f : α → Except Unit β) (b : β)
    (h : x >>= f = Except.ok b) : ∃ a, x = Except.ok a ∧ f a = Except.ok b := by
  cases x with
  | error e => simp [Bind.bind, Except.bind] at h
  | ok a => exact ⟨a, rfl, by simpa [Bind.bind, Except.bind] using h⟩

/-- Claim C6: the effective page size always lies in [1, 200] and
defaults to 20; the effective page is at least 1, is exactly 1 when no
rows match, and never exceeds the ceiling of total over the effective
page size; and page 999 with page size 20 against 45 rows lands on page
3, the last non-empty page. -/
theorem claim_C6_pagination :
    (∀ (pageParam pageSizeParam : Option Int) (total : Nat) (page ps tp : Int),
      effectivePaging pageParam pageSizeParam total = (page, ps, tp) →
      1 ≤ ps ∧ ps ≤ 200 ∧ (pageSizeParam = none → ps = 20) ∧ 1 ≤ page ∧
      (total = 0 → page = 1) ∧
      (0 < total → page ≤ ((total : Int) + ps - 1) / ps)) ∧
    effectivePaging (some 999) (some 20) 45 = (3, 20, 3) := by
  constructor
  · intro pp psp total page ps tp h
    simp only [effectivePaging, Prod.mk.injEq] at h
    obtain ⟨hpage, hps, htp⟩ := h
    subst hpage
    subst hps
    subst htp
    set B : Int := max 1 (min (psp.getD 20) 200) with hB
    have hB1 : 1 ≤ B := le_max_left _ _
    have hB200 : B ≤ 200 := max_le (by norm_num) (min_le_right _ _)
    set A : Int := max 1 (pp.getD 1) with hA
    have hA1 : 1 ≤ A := le_max_left _ _
    by_cases ht : total = 0
    · subst ht
      simp only [ne_eq, not_true_eq_false, if_false]
      refine ⟨hB1, hB200, fun hnone => by rw [hB, hnone]; norm_num, ?_, fun _ => ?_,
        fun h0 => absurd h0 (Nat.lt_irrefl 0)⟩
      · split_ifs <;> omega
      · split_ifs <;> omega
    · have htpos : (1 : Int) ≤ (total : Int) := by
        have hpos := Nat.pos_of_ne_zero ht
        exact_mod_cast hpos
      simp only [ne_eq, ht, not_false_iff, if_true]
      generalize hD : ((total : Int) + B - 1) / B = D
      have hD1 : 1 ≤ D := by
        rw [← hD, Int.le_ediv_iff_mul_le (by omega)]
        omega
      rw [max_eq_right hD1]
      refine ⟨hB1, hB200, fun hnone => by rw [hB, hnone]; norm_num, ?_,
        fun h0 => h0.elim, fun _ => ?_⟩
      · split_ifs <;> omega
      · split_ifs <;> omega
  · decide

/-- Claim C9: every record field value of a serialized row, and every
sources entry, is the result of passing the stored value through
fix_text; id, resolved and rep_date are returned as stored. -/
theorem claim_C9_repair_on_read (row : Row) (p : PayloadRow)
    (h : serializeRow row = Except.ok p) :
    fix_text row.EmpRUC = Except.ok p.EmpRUC ∧
    fix_text row.EmpRazonSocial = Except.ok p.EmpRazonSocial ∧
    fix_text row.EmpNom = Except.ok p.EmpNom ∧
    fix_text row.RepFecha = Except.ok p.RepFecha ∧
    fix_text row.RepLiqEstadoConsulta = Except.ok p.RepLiqEstadoConsulta ∧
    fix_text row.RepDetalleRechazo = Except.ok p.RepDetalleRechazo ∧
    row.sources.mapM fix_text = Except.ok p.sources ∧
    p.id = row.id ∧ p.resolved = row.resolved ∧ p.rep_date = row.RepFechaDate := by
  simp only [serializeRow] at h
  obtain ⟨v1, h1, h⟩ := bind_ok_inv _ _ _ h
  obtain ⟨v2, h2, h⟩ := bind_ok_inv _ _ _ h
  obtain ⟨v3, h3, h⟩ := bind_ok_inv _ _ _ h
  obtain ⟨v4, h4, h⟩ := bind_ok_inv _ _ _ h
  obtain ⟨v5, h5, h⟩ := bind_ok_inv _ _ _ h
  obtain ⟨v6, h6, h⟩ := bind_ok_inv _ _ _ h
  obtain ⟨v7, h7, h⟩ := bind_ok_inv _ _ _ h
  simp only [pure, Except.pure, Except.ok.injEq] at h
  subst h
  exact ⟨h1, h2, h3, h4, h5, h6, h7, rfl, rfl, rfl⟩

/-- Claim C4 is wrong about the code: fix_text is not total.  On a value
holding the corruption marker together with a character above U+00FF
(here a question mark followed by U+0100), the latin-1 re-encode raises
UnicodeEncodeError, which the source catches nowhere, and fixed-width
line parsing propagates the exception. -/
theorem claim_C4_repair_raises :
    fix_text (str ("?Ā")) = Except.error () ∧
      parse_fixed_width_line (str ("X  ?Ā")) [0, 3] = Except.error () :=
  ⟨rfl, rfl⟩

/-! Lemmas about the preparation and merge loops of insert_records. -/

theorem prepareStep_ne_dropped (record : Rec) :
    prepareStep record ≠ Except.ok PrepOut.dropped := by
  unfold prepareStep
  cases hf : fixRec record with
  | error e => simp [Bind.bind, Except.bind]
  | ok fixed =>
    simp only [Bind.bind, Except.bind]
    by_cases hig : IGNORED_DETAIL_PREFIXES.any
        (fun p => p.isPrefixOf (normalize_detail fixed.RepDetalleRechazo))
    · simp [hig, pure, Except.pure]
    · have hk := build_key_ne_nil fixed
      simp [hig, hk, pure, Except.pure]

theorem prepareLoop_ok (records : List Rec) :
    ∀ (P : List (Rec × Str × Str)) (ign : Nat),
      prepareLoop records = Except.ok (P, ign) →
      P = records.filterMap keptTriple ∧ ign = records.countP isIgnoredRec ∧
        P.length + ign = records.length := by
  induction records with
  | nil =>
    intro P ign h
    simp only [prepareLoop] at h
    simp [pure, Except.pure] at h
    obtain ⟨h1, h2⟩ := h
    subst h1
    subst h2
    simp
  | cons r rest ih =>
    intro P ign h
    simp only [prepareLoop] at h
    obtain ⟨out, hout, h⟩ := bind_ok_inv _ _ _ h
    obtain ⟨⟨ps, i⟩, hrest, h⟩ := bind_ok_inv _ _ _ h
    obtain ⟨hps, hcount, hlen⟩ := ih ps i hrest
    cases out with
    | ignored =>
      simp only [pure, Except.pure, Except.ok.injEq, Prod.mk.injEq] at h
      obtain ⟨h1, h2⟩ := h
      subst h1
      subst h2
      have hkt : keptTriple r = none := by simp [keptTriple, hout]
      have hig : isIgnoredRec r = true := by simp [isIgnoredRec, hout]
      refine ⟨by simp [List.filterMap_cons, hkt, hps], ?_, ?_⟩
      · simp [List.countP_cons, hig, hcount]
      · simp
        omega
    | dropped => exact absurd hout (prepareStep_ne_dropped r)
    | kept fixed key dn =>
      simp only [pure, Except.pure, Except.ok.injEq, Prod.mk.injEq] at h
      obtain ⟨h1, h2⟩ := h
      subst h1
      subst h2
      have hkt : keptTriple r = some (fixed, key, dn) := by simp [keptTriple, hout]
      have hig : isIgnoredRec r = false := by simp [isIgnoredRec, hout]
      refine ⟨by simp [List.filterMap_cons, hkt, hps], ?_, ?_⟩
      · simp [List.countP_cons, hig, hcount]
      · simp
        omega

theorem mergeLoop_counts (existing : Dict) (source : Str) (now : Nat) :
    ∀ (P : List (Rec × Str × Str)) (idx : Nat),
      (mergeLoop existing source now P idx).1 +
        (mergeLoop existing source now P idx).2.1 = P.length := by
  intro P
  induction P with
  | nil => intro idx; simp [mergeLoop]
  | cons p rest ih =>
    intro idx
    obtain ⟨record, key, dn⟩ := p
    have hrec := ih (idx + 1)
    rcases hm : mergeLoop existing source now rest (idx + 1) with ⟨a, d, us, ins⟩
    rw [hm] at hrec
    simp only at hrec
    simp only [mergeLoop]
    cases h : dictFind existing key with
    | none =>
      rw [hm]
      simpa using by omega
    | some sources0 =>
      rw [hm]
      by_cases hs : source ∈ sources0
      · simp only [hs, if_true]
        simpa using by omega
      · simp only [hs, if_false]
        simpa using by omega

theorem mergeLoop_updates_mem (existing : Dict) (source : Str) (now : Nat) :
    ∀ (P : List (Rec × Str × Str)) (idx : Nat) (u : Str × List Str),
      u ∈ (mergeLoop existing source now P idx).2.2.1 →
      ∃ p ∈ P, ∃ S, u = (p.2.1, S ++ [source]) ∧
        dictFind existing p.2.1 = some S ∧ source ∉ S := by
  intro P
  induction P with
  | nil => intro idx u hu; simp [mergeLoop] at hu
  | cons p rest ih =>
    intro idx u hu
    obtain ⟨record, key, dn⟩ := p
    rcases hm : mergeLoop existing source now rest (idx + 1) with ⟨a, d, us, ins⟩
    have ih' := ih (idx + 1)
    rw [hm] at ih'
    simp only at ih'
    simp only [mergeLoop] at hu
    cases h : dictFind existing key with
    | none =>
      rw [h, hm] at hu
      simp only at hu
      obtain ⟨q, hq, S, rest2⟩ := ih' u hu
      exact ⟨q, by simp [hq], S, rest2⟩
    | some sources0 =>
      rw [h, hm] at hu
      by_cases hs : source ∈ sources0
      · simp only [hs, if_true] at hu
        obtain ⟨q, hq, S, rest2⟩ := ih' u hu
        exact ⟨q, by simp [hq], S, rest2⟩
      · simp only [hs, if_false] at hu
        rcases List.mem_cons.mp hu with heq | hmem
        · exact ⟨(record, key, dn), by simp, sources0, by simp [heq], h, hs⟩
        · obtain ⟨q, hq, S, rest2⟩ := ih' u hmem
          exact ⟨q, by simp [hq], S, rest2⟩

theorem mergeLoop_inserts_mem (existing : Dict) (source : Str) (now : Nat) :
    ∀ (P : List (Rec × Str × Str)) (idx : Nat) (row : Row),
      row ∈ (mergeLoop existing source now P idx).2.2.2 →
      ∃ p ∈ P, ∃ k, row = mkRow p.1 p.2.1 p.2.2 source k ∧
        dictFind existing p.2.1 = none := by
  intro P
  induction P with
  | nil => intro idx row h; simp [mergeLoop] at h
  | cons p rest ih =>
    intro idx row hrow
    obtain ⟨record, key, dn⟩ := p
    rcases hm : mergeLoop existing source now rest (idx + 1) with ⟨a, d, us, ins⟩
    have ih' := ih (idx + 1)
    rw [hm] at ih'
    simp only at ih'
    simp only [mergeLoop] at hrow
    cases h : dictFind existing key with
    | none =>
      rw [h, hm] at hrow
      simp only at hrow
      rcases List.mem_cons.mp hrow with heq | hmem
      · exact ⟨(record, key, dn), by simp, now + idx, heq, h⟩
      · obtain ⟨q, hq, k, rest2⟩ := ih' row hmem
        exact ⟨q, by simp [hq], k, rest2⟩
    | some sources0 =>
      rw [h, hm] at hrow
      by_cases hs : source ∈ sources0
      · simp only [hs, if_true] at hrow
        obtain ⟨q, hq, k, rest2⟩ := ih' row hrow
        exact ⟨q, by simp [hq], k, rest2⟩
      · simp only [hs, if_false] at hrow
        obtain ⟨q, hq, k, rest2⟩ := ih' row hrow
        exact ⟨q, by simp [hq], k, rest2⟩

theorem mergeLoop_covers (existing : Dict) (source : Str) (now : Nat) :
    ∀ (P : List (Rec × Str × Str)) (idx : Nat) (p : Rec × Str × Str), p ∈ P →
      (dictFind existing p.2.1 = none →
        ∃ k, mkRow p.1 p.2.1 p.2.2 source k ∈ (mergeLoop existing source now P idx).2.2.2) ∧
      (∀ S, dictFind existing p.2.1 = some S →
        source ∈ S ∨ (p.2.1, S ++ [source]) ∈ (mergeLoop existing source now P idx).2.2.1) := by
  intro P
  induction P with
  | nil => intro idx p hp; simp at hp
  | cons q rest ih =>
    intro idx p hp
    obtain ⟨record, key, dn⟩ := q
    rcases hm : mergeLoop existing source now rest (idx + 1) with ⟨a, d, us, ins⟩
    have ih' := ih (idx + 1)
    rw [hm] at ih'
    simp only at ih'
    simp only [mergeLoop]
    rcases List.mem_cons.mp hp with heq | hmem
    · subst heq
      cases h : dictFind existing key with
      | none =>
        rw [hm]
        exact ⟨fun _ => ⟨now + idx, by simp⟩, fun S hS => absurd hS (by simp)⟩
      | some sources0 =>
        rw [hm]
        refine ⟨fun hnone => absurd hnone (by simp), fun S hS => ?_⟩
        have hSeq : sources0 = S := by simpa using hS
        subst hSeq
        by_cases hs : source ∈ sources0
        · exact Or.inl hs
        · exact Or.inr (by simp [hs])
    · cases h : dictFind existing key with
      | none =>
        rw [hm]
        obtain ⟨h1, h2⟩ := ih' p hmem
        refine ⟨fun hn => ?_, fun S hS => ?_⟩
        · obtain ⟨k, hk⟩ := h1 hn
          exact ⟨k, by simp [hk]⟩
        · rcases h2 S hS with hin | hin
          · exact Or.inl hin
          · exact Or.inr (by simp [hin])
      | some sources0 =>
        rw [hm]
        obtain ⟨h1, h2⟩ := ih' p hmem
        by_cases hs : source ∈ sources0
        · simp only [hs, if_true]
          exact ⟨fun hn => h1 hn, fun S hS => h2 S hS⟩
        · simp only [hs, if_false]
          refine ⟨fun hn => ?_, fun S hS => ?_⟩
          · obtain ⟨k, hk⟩ := h1 hn
            exact ⟨k, hk⟩
          · rcases h2 S hS with hin | hin
            · exact Or.inl hin
            · exact Or.inr (by simp [hin])

theorem mergeLoop_all_dup (existing : Dict) (source : Str) (now : Nat) :
    ∀ (P : List (Rec × Str × Str)) (idx : Nat),
      (∀ p ∈ P, ∃ S, dictFind existing p.2.1 = some S ∧ source ∈ S) →
      mergeLoop existing source now P idx = (0, P.length, [], []) := by
  intro P
  induction P with
  | nil => intro idx h; simp [mergeLoop]
  | cons p rest ih =>
    intro idx hall
    obtain ⟨record, key, dn⟩ := p
    obtain ⟨S, hS, hsrc⟩ := hall (record, key, dn) (by simp)
    simp only [mergeLoop]
    rw [show dictFind existing key = some S from hS]
    rw [ih (idx + 1) (fun q hq => hall q (by simp [hq]))]
    simp only at hsrc ⊢
    simp [hsrc]

theorem applyUpdates_eq_map :
    ∀ (us : List (Str × List Str)) (st : Store),
      applyUpdates st us = st.map (fun row => us.foldl updOne row) := by
  intro us
  induction us with
  | nil => intro st; simp [applyUpdates]
  | cons u us ih =>
    intro st
    obtain ⟨key, srcs⟩ := u
    rw [applyUpdates, ih, List.map_map]
    rfl

theorem updFold_id (us : List (Str × List Str)) :
    ∀ row : Row, (us.foldl updOne row).id = row.id := by
  induction us with
  | nil => intro row; rfl
  | cons u us ih =>
    intro row
    rw [List.foldl_cons]
    rw [ih (updOne row u)]
    unfold updOne
    split <;> rfl

theorem row_set_sources_twice (row : Row) (a b : List Str) :
    ({ ({ row with sources := a } : Row) with sources := b } : Row) =
      { row with sources := b } := by
  cases row
  rfl

theorem updFold_shape (us : List (Str × List Str)) :
    ∀ row : Row, ∃ s, us.foldl updOne row = { row with sources := s } := by
  induction us with
  | nil =>
    intro row
    refine ⟨row.sources, ?_⟩
    cases row
    rfl
  | cons u us ih =>
    intro row
    rw [List.foldl_cons]
    by_cases h : row.id = u.1
    · have h1 : updOne row u = { row with sources := u.2 } := by
        unfold updOne
        rw [if_pos h]
      rw [h1]
      obtain ⟨s, hs⟩ := ih { row with sources := u.2 }
      rw [hs, row_set_sources_twice]
      exact ⟨s, rfl⟩
    · have h1 : updOne row u = row := by
        unfold updOne
        rw [if_neg h]
      rw [h1]
      exact ih row

theorem updFold_no_match (us : List (Str × List Str)) :
    ∀ row : Row, (∀ u ∈ us, u.1 ≠ row.id) → us.foldl updOne row = row := by
  induction us with
  | nil => intro row _; rfl
  | cons u us ih =>
    intro row h
    rw [List.foldl_cons]
    have h1 : updOne row u = row := by
      unfold updOne
      rw [if_neg (fun he => h u (by simp) he.symm)]
    rw [h1]
    exact ih row (fun u' hu' => h u' (by simp [hu']))

theorem updFold_const (us : List (Str × List Str)) :
    ∀ (row : Row) (V : List Str),
      (∀ u ∈ us, u.1 = row.id → u.2 = V) →
      (∃ u ∈ us, u.1 = row.id) →
      us.foldl updOne row = { row with sources := V } := by
  induction us with
  | nil =>
    intro row V _ hex
    simp at hex
  | cons u us ih =>
    intro row V hall hex
    rw [List.foldl_cons]
    by_cases hu : u.1 = row.id
    · have hv : u.2 = V := hall u (by simp) hu
      have h1 : updOne row u = { row with sources := V } := by
        unfold updOne
        rw [if_pos hu.symm, hv]
      rw [h1]
      by_cases hex2 : ∃ u' ∈ us, u'.1 = row.id
      · obtain ⟨u', hu', hid⟩ := hex2
        rw [ih { row with sources := V } V
          (fun w hw hid2 => hall w (by simp [hw]) hid2)
          ⟨u', hu', hid⟩]
      · exact updFold_no_match us _ (fun w hw hid2 => hex2 ⟨w, hw, hid2⟩)
    · have h1 : updOne row u = row := by
        unfold updOne
        rw [if_neg (fun he => hu he.symm)]
      rw [h1]
      obtain ⟨u', hu', hid⟩ := hex
      rcases List.mem_cons.mp hu' with heq | hmem
      · rw [heq] at hid
        exact absurd hid hu
      · exact ih row V (fun w hw hid2 => hall w (by simp [hw]) hid2) ⟨u', hmem, hid⟩

theorem applyInserts_ok_eq :
    ∀ (rows : List Row) (st st' : Store),
      applyInserts st rows = Except.ok st' → st' = st ++ rows := by
  intro rows
  induction rows with
  | nil =>
    intro st st' h
    simp only [applyInserts] at h
    simp at h
    simp [h]
  | cons row rest ih =>
    intro st st' h
    simp only [applyInserts] at h
    by_cases hc : st.any (fun r0 => decide (r0.id = row.id))
    · rw [if_pos hc] at h
      exact absurd h (by simp)
    · rw [if_neg hc] at h
      rw [ih (st ++ [row]) st' h, List.append_assoc]
      rfl

theorem applyInserts_ok_wf :
    ∀ (rows : List Row) (st st' : Store),
      applyInserts st rows = Except.ok st' → StoreWF st → StoreWF st' := by
  intro rows
  induction rows with
  | nil =>
    intro st st' h hwf
    simp only [applyInserts] at h
    simp at h
    rw [← h]
    exact hwf
  | cons row rest ih =>
    intro st st' h hwf
    simp only [applyInserts] at h
    by_cases hc : st.any (fun r0 => decide (r0.id = row.id))
    · rw [if_pos hc] at h
      exact absurd h (by simp)
    · rw [if_neg hc] at h
      apply ih (st ++ [row]) st' h
      have hnotin : row.id ∉ st.map Row.id := by
        intro hin
        obtain ⟨r0, hr0, hid⟩ := List.mem_map.mp hin
        exact hc (List.any_eq_true.mpr ⟨r0, hr0, by simp [hid]⟩)
      unfold StoreWF at hwf ⊢
      rw [List.map_append]
      simp [List.nodup_append, hwf, hnotin]

/-! Dict and key-lookup characterization. -/

theorem dictFind_eq_none_of (d : Dict) (k : Str) (hnone : ∀ v, (k, v) ∉ d) :
    dictFind d k = none := by
  unfold dictFind
  rw [List.find?_eq_none.mpr]
  · rfl
  · intro x hx
    simp only [decide_eq_true_eq]
    intro hxk
    exact hnone x.2 (by
      have hxd : x ∈ d := List.mem_reverse.mp hx
      rw [← hxk]
      simpa using hxd)

theorem dictFind_eq_some_of_mem (d : Dict) (k : Str) (v : List Str)
    (huniq : ∀ v1 v2, (k, v1) ∈ d → (k, v2) ∈ d → v1 = v2)
    (hmem : (k, v) ∈ d) : dictFind d k = some v := by
  unfold dictFind
  have hex : ∃ x ∈ d.reverse, (fun p => decide (p.1 = k)) x := by
    exact ⟨(k, v), List.mem_reverse.mpr hmem, by simp⟩
  rcases hf : d.reverse.find? (fun p => decide (p.1 = k)) with _ | x
  · rw [List.find?_eq_none] at hf
    obtain ⟨x, hx, hpx⟩ := hex
    exact absurd hpx (by simpa using hf x hx)
  · have hxd : x ∈ d := List.mem_reverse.mp (List.mem_of_find?_eq_some hf)
    have hxk : x.1 = k := by simpa using List.find?_some hf
    have hxv : x.2 = v := by
      apply huniq
      · rw [← hxk]
        simpa using hxd
      · exact hmem
    rw [hf]
    simp [hxv]

theorem dictFind_some_mem (d : Dict) (k : Str) (S : List Str)
    (h : dictFind d k = some S) : (k, S) ∈ d := by
  unfold dictFind at h
  rcases hf : d.reverse.find? (fun p => decide (p.1 = k)) with _ | x
  · rw [hf] at h
    simp at h
  · rw [hf] at h
    have hxd : x ∈ d := List.mem_reverse.mp (List.mem_of_find?_eq_some hf)
    have hxk : x.1 = k := by simpa using List.find?_some hf
    have hxS : x.2 = S := by simpa using h
    rw [← hxk, ← hxS]
    simpa using hxd

theorem foldl_append_blocks {α β : Type} (f : α → List β) :
    ∀ (l : List α) (init : List β),
      l.foldl (fun d x => d ++ f x) init = init ++ (l.map f).flatten := by
  intro l
  induction l with
  | nil => intro init; simp
  | cons x xs ih =>
    intro init
    rw [List.foldl_cons, ih, List.map_cons, List.flatten_cons, List.append_assoc]

theorem buildExisting_eq (st : Store) (chunks : List (List Str)) :
    buildExisting st chunks =
      (chunks.map (fun c => (st.filter (fun row => decide (row.id ∈ c))).map
        (fun row => (row.id, row.sources)))).flatten := by
  unfold buildExisting
  rw [foldl_append_blocks]
  rfl

theorem mem_buildExisting (st : Store) (chunks : List (List Str)) (k : Str) (v : List Str) :
    (k, v) ∈ buildExisting st chunks ↔
      ∃ row ∈ st, row.id = k ∧ row.sources = v ∧ ∃ c ∈ chunks, k ∈ c := by
  rw [buildExisting_eq]
  rw [List.mem_flatten]
  constructor
  · rintro ⟨block, hblock, hkv⟩
    obtain ⟨c, hc, rfl⟩ := List.mem_map.mp hblock
    obtain ⟨row, hrow, heq⟩ := List.mem_map.mp hkv
    obtain ⟨hrowst, hrowc⟩ := List.mem_filter.mp hrow
    have hid : row.id = k := by
      have := congrArg Prod.fst heq
      simpa using this
    have hsrc : row.sources = v := by
      have := congrArg Prod.snd heq
      simpa using this
    exact ⟨row, hrowst, hid, hsrc, c, hc, by rw [← hid]; simpa using hrowc⟩
  · rintro ⟨row, hrowst, hid, hsrc, c, hc, hkc⟩
    refine ⟨(st.filter (fun row => decide (row.id ∈ c))).map (fun row => (row.id, row.sources)),
      List.mem_map.mpr ⟨c, hc, rfl⟩, ?_⟩
    apply List.mem_map.mpr
    refine ⟨row, List.mem_filter.mpr ⟨hrowst, by simp [hid, hkc]⟩, by rw [hid, hsrc]⟩

theorem find?_eq_of_mem_wf (st : Store) (row : Row) (hwf : StoreWF st) (hmem : row ∈ st) :
    st.find? (fun r => decide (r.id = row.id)) = some row := by
  rcases hf : st.find? (fun r => decide (r.id = row.id)) with _ | r2
  · rw [List.find?_eq_none] at hf
    exact absurd (by simp : decide (row.id = row.id) = true) (hf row hmem)
  · have hr2mem := List.mem_of_find?_eq_some hf
    have hr2id : r2.id = row.id := by simpa using List.find?_some hf
    have : r2 = row := List.inj_on_of_nodup_map hwf hr2mem hmem hr2id
    rw [hf, this]

theorem dictFind_buildExisting (st : Store) (sizePred : Nat) (keys : List Str) (k : Str)
    (hwf : StoreWF st) :
    dictFind (buildExisting st (chunked sizePred keys)) k =
      if k ∈ keys then (st.find? (fun row => decide (row.id = k))).map Row.sources
      else none := by
  by_cases hk : k ∈ keys
  · rcases hf : st.find? (fun row => decide (row.id = k)) with _ | row
    · rw [if_pos hk, hf]
      apply dictFind_eq_none_of
      intro v hv
      rw [mem_buildExisting] at hv
      obtain ⟨r2, hr2, hid, -, -⟩ := hv
      rw [List.find?_eq_none] at hf
      exact absurd (by simp [hid] : decide (r2.id = k) = true) (hf r2 hr2)
    · rw [if_pos hk, hf]
      have hrowmem := List.mem_of_find?_eq_some hf
      have hrowid : row.id = k := by simpa using List.find?_some hf
      have hkchunk : ∃ c ∈ chunked sizePred keys, k ∈ c := by
        have hkx : k ∈ (chunked sizePred keys).flatten := by
          rw [chunked_flatten]
          exact hk
        exact List.mem_flatten.mp hkx
      apply dictFind_eq_some_of_mem
      · intro v1 v2 h1 h2
        rw [mem_buildExisting] at h1 h2
        obtain ⟨r1, hr1, hid1, hs1, -⟩ := h1
        obtain ⟨r2, hr2, hid2, hs2, -⟩ := h2
        have heq : r1 = r2 :=
          List.inj_on_of_nodup_map hwf hr1 hr2 (by rw [hid1, hid2])
        rw [← hs1, ← hs2, heq]
      · rw [mem_buildExisting]
        exact ⟨row, hrowmem, hrowid, rfl, hkchunk⟩
  · rw [if_neg hk]
    apply dictFind_eq_none_of
    intro v hv
    rw [mem_buildExisting] at hv
    obtain ⟨-, -, -, -, c, hc, hkc⟩ := hv
    have : k ∈ (chunked sizePred keys).flatten := List.mem_flatten.mpr ⟨c, hc, hkc⟩
    rw [chunked_flatten] at this
    exact hk this

/-! Inversion and computation lemmas for insert_records. -/

theorem insert_records_nil (st : Store) (source : Str) (now : Nat) :
    insert_records st [] source now = Except.ok (st, 0, 0, 0) := rfl

theorem insert_records_inv (st : Store) (records : List Rec) (source : Str) (now : Nat)
    (st2 : Store) (a d ign : Nat)
    (h : insert_records st records source now = Except.ok (st2, a, d, ign)) :
    (records = [] ∧ st2 = st ∧ a = 0 ∧ d = 0 ∧ ign = 0) ∨
    (records ≠ [] ∧ ∃ P us ins,
      prepareLoop records = Except.ok (P, ign) ∧
      ((P = [] ∧ st2 = st ∧ a = 0 ∧ d = 0) ∨
       (P ≠ [] ∧
        mergeLoop (buildExisting st (chunked 499 (P.map (fun p => p.2.1)))) source now P 0 =
          (a, d, us, ins) ∧
        applyInserts (applyUpdates st us) ins = Except.ok st2))) := by
  unfold insert_records at h
  by_cases hrec : records = []
  · rw [if_pos hrec] at h
    simp only [pure, Except.pure, Except.ok.injEq, Prod.mk.injEq] at h
    exact Or.inl ⟨hrec, h.1.symm, h.2.1.symm, h.2.2.1.symm, h.2.2.2.symm⟩
  · rw [if_neg hrec] at h
    obtain ⟨⟨P, ign0⟩, hprep, h⟩ := bind_ok_inv _ _ _ h
    dsimp only at h
    by_cases hP : P = []
    · subst hP
      rw [if_pos rfl] at h
      simp only [pure, Except.pure, Except.ok.injEq, Prod.mk.injEq] at h
      obtain ⟨h1, h2, h3, h4⟩ := h
      refine Or.inr ⟨hrec, [], [], [], ?_, Or.inl ⟨rfl, h1.symm, h2.symm, h3.symm⟩⟩
      rw [hprep, h4]
    · rw [if_neg hP] at h
      rcases hm : mergeLoop (buildExisting st (chunked 499 (P.map (fun p => p.2.1))))
          source now P 0 with ⟨A, D, us, ins⟩
      rw [hm] at h
      simp only at h
      obtain ⟨stX, hins, h⟩ := bind_ok_inv _ _ _ h
      simp only [pure, Except.pure, Except.ok.injEq, Prod.mk.injEq] at h
      obtain ⟨h1, h2, h3, h4⟩ := h
      subst h1
      refine Or.inr ⟨hrec, P, us, ins, ?_, Or.inr ⟨hP, ?_, hins⟩⟩
      · rw [hprep, h4]
      · rw [hm, h2, h3]

theorem insert_records_noprep (st : Store) (records : List Rec) (source : Str) (now : Nat)
    (ign : Nat) (hrec : records ≠ []) (hp : prepareLoop records = Except.ok ([], ign)) :
    insert_records st records source now = Except.ok (st, 0, 0, ign) := by
  unfold insert_records
  rw [if_neg hrec, hp]
  rfl

theorem insert_records_build (st : Store) (records : List Rec) (source : Str) (now : Nat)
    (P : List (Rec × Str × Str)) (ign : Nat) (A D : Nat) (us : List (Str × List Str))
    (ins : List Row) (st2 : Store)
    (hrec : records ≠ []) (hp : prepareLoop records = Except.ok (P, ign)) (hP : P ≠ [])
    (hml : mergeLoop (buildExisting st (chunked 499 (P.map (fun p => p.2.1)))) source now P 0 =
      (A, D, us, ins))
    (hins : applyInserts (applyUpdates st us) ins = Except.ok st2) :
    insert_records st records source now = Except.ok (st2, A, D, ign) := by
  unfold insert_records
  rw [if_neg hrec, hp]
  show (Except.ok (P, ign) >>= _) = _
  simp only [Bind.bind, Except.bind]
  rw [if_neg hP, hml]
  simp only
  rw [hins]
  rfl

/-! Post-state facts about one merge call. -/

theorem applyUpdates_map_id (st : Store) (us : List (Str × List Str)) :
    (applyUpdates st us).map Row.id = st.map Row.id := by
  rw [applyUpdates_eq_map, List.map_map]
  apply List.map_congr_left
  intro row _
  exact updFold_id us row

theorem applyUpdates_wf (st : Store) (us : List (Str × List Str)) (hwf : StoreWF st) :
    StoreWF (applyUpdates st us) := by
  unfold StoreWF
  rw [applyUpdates_map_id]
  exact hwf

theorem mergeLoop_update_value (st : Store) (P : List (Rec × Str × Str)) (source : Str)
    (now : Nat) (A D : Nat) (us : List (Str × List Str)) (ins : List Row) (hwf : StoreWF st)
    (hml : mergeLoop (buildExisting st (chunked 499 (P.map (fun p => p.2.1)))) source now P 0 =
      (A, D, us, ins)) :
    ∀ u ∈ us, ∀ row ∈ st, u.1 = row.id →
      u.2 = row.sources ++ [source] ∧ source ∉ row.sources := by
  intro u hu row hrow huid
  have hu2 : u ∈ (mergeLoop (buildExisting st (chunked 499 (P.map (fun p => p.2.1))))
      source now P 0).2.2.1 := by
    rw [hml]
    exact hu
  obtain ⟨p, hp, S, huval, hdf, hnotin⟩ := mergeLoop_updates_mem _ _ _ _ _ _ hu2
  have hpid : p.2.1 = row.id := by
    rw [huval] at huid
    simpa using huid
  have hk : p.2.1 ∈ P.map (fun p => p.2.1) := List.mem_map.mpr ⟨p, hp, rfl⟩
  rw [dictFind_buildExisting st 499 _ _ hwf, if_pos hk, hpid,
    find?_eq_of_mem_wf st row hwf hrow] at hdf
  have hS : row.sources = S := by simpa using hdf
  subst hS
  exact ⟨by rw [huval, hpid], hnotin⟩

theorem merge_fold_sources (st : Store) (P : List (Rec × Str × Str)) (source : Str)
    (now : Nat) (A D : Nat) (us : List (Str × List Str)) (ins : List Row) (hwf : StoreWF st)
    (hml : mergeLoop (buildExisting st (chunked 499 (P.map (fun p => p.2.1)))) source now P 0 =
      (A, D, us, ins)) (row : Row) (hrow : row ∈ st) :
    ((∀ p ∈ P, p.2.1 ≠ row.id) → us.foldl updOne row = row) ∧
    (source ∈ row.sources → us.foldl updOne row = row) ∧
    (∀ p ∈ P, p.2.1 = row.id → source ∉ row.sources →
      us.foldl updOne row = { row with sources := row.sources ++ [source] }) := by
  have hval := mergeLoop_update_value st P source now A D us ins hwf hml
  refine ⟨?_, ?_, ?_⟩
  · intro hno
    apply updFold_no_match
    intro u hu huid
    have hu2 : u ∈ (mergeLoop (buildExisting st (chunked 499 (P.map (fun p => p.2.1))))
        source now P 0).2.2.1 := by
      rw [hml]
      exact hu
    obtain ⟨p, hp, S, huval, -, -⟩ := mergeLoop_updates_mem _ _ _ _ _ _ hu2
    apply hno p hp
    rw [huval] at huid
    simpa using huid
  · intro hsrc
    apply updFold_no_match
    intro u hu huid
    exact (hval u hu row hrow huid).2 hsrc
  · intro p hp hpid hnot
    have hk : p.2.1 ∈ P.map (fun q => q.2.1) := List.mem_map.mpr ⟨p, hp, rfl⟩
    have hdf : dictFind (buildExisting st (chunked 499 (P.map (fun q => q.2.1)))) p.2.1 =
        some row.sources := by
      rw [dictFind_buildExisting st 499 _ _ hwf, if_pos hk, hpid,
        find?_eq_of_mem_wf st row hwf hrow]
      rfl
    have hcov := (mergeLoop_covers _ source now P 0 p hp).2 row.sources hdf
    rcases hcov with hin | hin
    · exact absurd hin hnot
    · rw [hml] at hin
      simp only at hin
      apply updFold_const
      · intro u hu huid
        exact ((hval u hu row hrow huid).1)
      · exact ⟨(p.2.1, row.sources ++ [source]), hin, by rw [hpid]⟩

theorem main_branch_key_source (st : Store) (P : List (Rec × Str × Str)) (source : Str)
    (now : Nat) (A D : Nat) (us : List (Str × List Str)) (ins : List Row) (st2 : Store)
    (hwf : StoreWF st)
    (hml : mergeLoop (buildExisting st (chunked 499 (P.map (fun p => p.2.1)))) source now P 0 =
      (A, D, us, ins))
    (hins : applyInserts (applyUpdates st us) ins = Except.ok st2) :
    ∀ p ∈ P, ∃ row2 ∈ st2, row2.id = p.2.1 ∧ source ∈ row2.sources := by
  intro p hp
  have hst2 : st2 = applyUpdates st us ++ ins := applyInserts_ok_eq _ _ _ hins
  cases hdf : dictFind (buildExisting st (chunked 499 (P.map (fun q => q.2.1)))) p.2.1 with
  | none =>
    obtain ⟨k, hk⟩ := (mergeLoop_covers _ source now P 0 p hp).1 hdf
    rw [hml] at hk
    simp only at hk
    refine ⟨mkRow p.1 p.2.1 p.2.2 source k, ?_, rfl, by simp [mkRow]⟩
    rw [hst2]
    exact List.mem_append_right _ hk
  | some S =>
    have hk : p.2.1 ∈ P.map (fun q => q.2.1) := List.mem_map.mpr ⟨p, hp, rfl⟩
    rw [dictFind_buildExisting st 499 _ _ hwf, if_pos hk] at hdf
    rcases hfind : st.find? (fun row => decide (row.id = p.2.1)) with _ | row0
    · rw [hfind] at hdf
      simp at hdf
    · rw [hfind] at hdf
      have hrow0 : row0 ∈ st := List.mem_of_find?_eq_some hfind
      have hrow0id : row0.id = p.2.1 := by simpa using List.find?_some hfind
      have hrow0S : row0.sources = S := by simpa using hdf
      have hfs := merge_fold_sources st P source now A D us ins hwf hml row0 hrow0
      have hmem1 : us.foldl updOne row0 ∈ applyUpdates st us := by
        rw [applyUpdates_eq_map]
        exact List.mem_map.mpr ⟨row0, hrow0, rfl⟩
      by_cases hsrc : source ∈ row0.sources
      · refine ⟨us.foldl updOne row0, ?_, ?_, ?_⟩
        · rw [hst2]
          exact List.mem_append_left _ hmem1
        · rw [hfs.2.1 hsrc]
          exact hrow0id
        · rw [hfs.2.1 hsrc]
          exact hsrc
      · have hfold := hfs.2.2 p hp hrow0id.symm hsrc
        refine ⟨us.foldl updOne row0, ?_, ?_, ?_⟩
        · rw [hst2]
          exact List.mem_append_left _ hmem1
        · rw [hfold]
          exact hrow0id
        · rw [hfold]
          simp

theorem filterMap_length_countP {α β : Type} (f : α → Option β) (l : List α) :
    (l.filterMap f).length = l.countP (fun a => (f a).isSome) := by
  induction l with
  | nil => simp
  | cons x xs ih =>
    rw [List.filterMap_cons]
    cases hx : f x <;> simp [List.countP_cons, hx, ih]

/-- Claim C1 (amended): re-running the ingestion merge on the exact same
batch with the same source label, after a first call that succeeded on a
well-formed store, succeeds, returns added 0, duplicate equal to the sum
of the first call's added and duplicate counts (not only its added
count, which the counterexample refutes), the same ignored count, and
leaves the stored rows exactly unchanged. -/
theorem claim_C1_amended (st : Store) (records : List Rec) (source : Str) (now now' : Nat)
    (st1 : Store) (a d ign : Nat) (hwf : StoreWF st)
    (h1 : insert_records st records source now = Except.ok (st1, a, d, ign)) :
    insert_records st1 records source now' = Except.ok (st1, 0, a + d, ign) := by
  rcases insert_records_inv st records source now st1 a d ign h1 with
    ⟨hrec, hst, ha, hd, hig⟩ | ⟨hrec, P, us, ins, hprep, hcase⟩
  · subst hrec
    subst hst
    subst ha
    subst hd
    subst hig
    exact insert_records_nil _ source now'
  · rcases hcase with ⟨hP, hst, ha, hd⟩ | ⟨hP, hml, hins⟩
    · subst hP
      subst hst
      subst ha
      subst hd
      exact insert_records_noprep _ records source now' ign hrec hprep
    · have hwf1 : StoreWF st1 :=
        applyInserts_ok_wf ins _ st1 hins (applyUpdates_wf st us hwf)
      have hsum : a + d = P.length := by
        have hc := mergeLoop_counts (buildExisting st (chunked 499 (P.map (fun p => p.2.1))))
          source now P 0
        rw [hml] at hc
        simpa using hc
      have hkeysrc := main_branch_key_source st P source now a d us ins st1 hwf hml hins
      have hall : ∀ p ∈ P, ∃ S,
          dictFind (buildExisting st1 (chunked 499 (P.map (fun p => p.2.1)))) p.2.1 = some S ∧
            source ∈ S := by
        intro p hp
        obtain ⟨row2, hrow2, hid, hsrc⟩ := hkeysrc p hp
        refine ⟨row2.sources, ?_, hsrc⟩
        have hk : p.2.1 ∈ P.map (fun q => q.2.1) := List.mem_map.mpr ⟨p, hp, rfl⟩
        rw [dictFind_buildExisting st1 499 _ _ hwf1, if_pos hk, ← hid,
          find?_eq_of_mem_wf st1 row2 hwf1 hrow2]
        rfl
      have hml2 := mergeLoop_all_dup
        (buildExisting st1 (chunked 499 (P.map (fun p => p.2.1)))) source now' P 0 hall
      have hres := insert_records_build st1 records source now' P ign 0 P.length [] [] st1
        hrec hprep hP hml2 rfl
      rw [hres, hsum]

/-- Claim C10: the identity key of a record is never empty (it always
holds the five double-pipe delimiters), the silent empty-key drop of the
merge loop is unreachable, and therefore every successful merge call
returns added + duplicate + ignored equal to the number of candidate
records in the batch. -/
theorem claim_C10_counts :
    (∀ record : Rec, build_key record ≠ []) ∧
    (∀ record : Rec, prepareStep record ≠ Except.ok PrepOut.dropped) ∧
    (∀ (st : Store) (records : List Rec) (source : Str) (now : Nat)
        (st2 : Store) (a d ign : Nat),
      insert_records st records source now = Except.ok (st2, a, d, ign) →
      a + d + ign = records.length) := by
  refine ⟨build_key_ne_nil, prepareStep_ne_dropped, ?_⟩
  intro st records source now st2 a d ign h
  rcases insert_records_inv st records source now st2 a d ign h with
    ⟨hrec, -, ha, hd, hig⟩ | ⟨hrec, P, us, ins, hprep, hcase⟩
  · subst hrec
    subst ha
    subst hd
    subst hig
    rfl
  · obtain ⟨-, -, hlen⟩ := prepareLoop_ok records P ign hprep
    rcases hcase with ⟨hP, -, ha, hd⟩ | ⟨hP, hml, -⟩
    · subst hP
      subst ha
      subst hd
      simp at hlen
      omega
    · have hc := mergeLoop_counts (buildExisting st (chunked 499 (P.map (fun p => p.2.1))))
        source now P 0
      rw [hml] at hc
      simp at hc
      omega

/-- Claim C2: in every successful merge call the ignored counter counts
exactly the records whose repaired, normalized detail starts with a
normalized ignorable entry; added plus duplicate counts exactly the kept
records, so an ignored record is counted in neither; and every row of
the resulting store either was already present or carries the key of a
kept (never an ignored) record, so an ignored record is never stored. -/
theorem claim_C2_ignored (st : Store) (records : List Rec) (source : Str) (now : Nat)
    (st2 : Store) (a d ign : Nat)
    (h : insert_records st records source now = Except.ok (st2, a, d, ign)) :
    ign = records.countP isIgnoredRec ∧
    a + d = records.countP (fun r => (keptTriple r).isSome) ∧
    ∀ row ∈ st2, row.id ∈ st.map Row.id ∨
      ∃ r ∈ records, ∃ t, keptTriple r = some t ∧ t.2.1 = row.id := by
  rcases insert_records_inv st records source now st2 a d ign h with
    ⟨hrec, hst, ha, hd, hig⟩ | ⟨hrec, P, us, ins, hprep, hcase⟩
  · subst hrec
    subst hst
    subst ha
    subst hd
    subst hig
    refine ⟨rfl, rfl, ?_⟩
    intro row hrow
    exact Or.inl (List.mem_map.mpr ⟨row, hrow, rfl⟩)
  · obtain ⟨hPeq, hcount, -⟩ := prepareLoop_ok records P ign hprep
    have hkept : P.length = records.countP (fun r => (keptTriple r).isSome) := by
      rw [hPeq]
      exact filterMap_length_countP keptTriple records
    rcases hcase with ⟨hP, hst, ha, hd⟩ | ⟨hP, hml, hins⟩
    · subst hst
      subst ha
      subst hd
      refine ⟨hcount, by rw [← hkept, hP]; rfl, ?_⟩
      intro row hrow
      exact Or.inl (List.mem_map.mpr ⟨row, hrow, rfl⟩)
    · have hsum : a + d = P.length := by
        have hc := mergeLoop_counts (buildExisting st (chunked 499 (P.map (fun p => p.2.1))))
          source now P 0
        rw [hml] at hc
        simpa using hc
      refine ⟨hcount, by rw [hsum, hkept], ?_⟩
      intro row hrow
      rw [applyInserts_ok_eq ins _ st2 hins] at hrow
      rcases List.mem_append.mp hrow with hup | hins2
      · rw [applyUpdates_eq_map] at hup
        obtain ⟨row0, hrow0, heq⟩ := List.mem_map.mp hup
        left
        rw [← heq, updFold_id]
        exact List.mem_map.mpr ⟨row0, hrow0, rfl⟩
      · have hins3 : row ∈ (mergeLoop (buildExisting st (chunked 499 (P.map (fun p => p.2.1))))
            source now P 0).2.2.2 := by
          rw [hml]
          exact hins2
        obtain ⟨p, hp, k, hrowval, -⟩ := mergeLoop_inserts_mem _ _ _ _ _ _ hins3
        right
        rw [hPeq] at hp
        obtain ⟨r, hr, ht⟩ := List.mem_filterMap.mp hp
        exact ⟨r, hr, p, ht, by rw [hrowval]; rfl⟩

/-- Claim C7: every row already stored survives a successful merge on a
well-formed store with every field unchanged except sources, which gains
the call's source label appended at the end exactly when some kept
candidate carries the row's key and the label was absent, and stays
unchanged otherwise; and uploading the same record from file A then file
B yields one stored row with sources A then B, added 1 on the first call
and duplicate 1 on the second. -/
theorem claim_C7_frame :
    (∀ (st : Store) (records : List Rec) (source : Str) (now : Nat)
        (st2 : Store) (a d ign : Nat), StoreWF st →
      insert_records st records source now = Except.ok (st2, a, d, ign) →
      ∀ row ∈ st, ∃ row2 ∈ st2,
        row2.id = row.id ∧ row2.EmpRUC = row.EmpRUC ∧
        row2.EmpRazonSocial = row.EmpRazonSocial ∧ row2.EmpNom = row.EmpNom ∧
        row2.RepFecha = row.RepFecha ∧ row2.RepFechaDate = row.RepFechaDate ∧
        row2.RepLiqEstadoConsulta = row.RepLiqEstadoConsulta ∧
        row2.RepDetalleRechazo = row.RepDetalleRechazo ∧
        row2.detail_normalized = row.detail_normalized ∧
        row2.resolved = row.resolved ∧ row2.created_at = row.created_at ∧
        ((¬ ∃ r ∈ records, ∃ t, keptTriple r = some t ∧ t.2.1 = row.id) →
          row2.sources = row.sources) ∧
        (source ∈ row.sources → row2.sources = row.sources) ∧
        (∀ r ∈ records, ∀ t, keptTriple r = some t → t.2.1 = row.id →
          source ∉ row.sources → row2.sources = row.sources ++ [source])) ∧
    insert_records [] [rec7] (str ("A")) 0 = Except.ok ([row7A], 1, 0, 0) ∧
    insert_records [row7A] [rec7] (str ("B")) 99 = Except.ok ([row7AB], 0, 1, 0) := by
  refine ⟨?_, rfl, rfl⟩
  intro st records source now st2 a d ign hwf h row hrow
  rcases insert_records_inv st records source now st2 a d ign h with
    ⟨hrec, hst, -, -, -⟩ | ⟨hrec, P, us, ins, hprep, hcase⟩
  · subst hrec
    subst hst
    refine ⟨row, hrow, rfl, rfl, rfl, rfl, rfl, rfl, rfl, rfl, rfl, rfl, rfl,
      fun _ => rfl, fun _ => rfl, ?_⟩
    intro r hr
    simp at hr
  · obtain ⟨hPeq, -, -⟩ := prepareLoop_ok records P ign hprep
    rcases hcase with ⟨hP, hst, -, -⟩ | ⟨hP, hml, hins⟩
    · subst hst
      refine ⟨row, hrow, rfl, rfl, rfl, rfl, rfl, rfl, rfl, rfl, rfl, rfl, rfl,
        fun _ => rfl, fun _ => rfl, ?_⟩
      intro r hr t ht htid hnot
      have : t ∈ P := by
        rw [hPeq]
        exact List.mem_filterMap.mpr ⟨r, hr, ht⟩
      rw [hP] at this
      simp at this
    · have hfs := merge_fold_sources st P source now a d us ins hwf hml row hrow
      obtain ⟨s, hshape⟩ := updFold_shape us row
      have hmem2 : us.foldl updOne row ∈ st2 := by
        rw [applyInserts_ok_eq ins _ st2 hins]
        apply List.mem_append_left
        rw [applyUpdates_eq_map]
        exact List.mem_map.mpr ⟨row, hrow, rfl⟩
      refine ⟨us.foldl updOne row, hmem2, updFold_id us row, ?_, ?_, ?_, ?_, ?_, ?_, ?_,
        ?_, ?_, ?_, ?_, ?_, ?_⟩
      · rw [hshape]
      · rw [hshape]
      · rw [hshape]
      · rw [hshape]
      · rw [hshape]
      · rw [hshape]
      · rw [hshape]
      · rw [hshape]
      · rw [hshape]
      · rw [hshape]
      · intro hno
        rw [hfs.1]
        intro p hp hpid
        apply hno
        rw [hPeq] at hp
        obtain ⟨r, hr, ht⟩ := List.mem_filterMap.mp hp
        exact ⟨r, hr, p, ht, hpid⟩
      · intro hsrc
        rw [hfs.2.1 hsrc]
      · intro r hr t ht htid hnot
        have htP : t ∈ P := by
          rw [hPeq]
          exact List.mem_filterMap.mpr ⟨r, hr, ht⟩
        rw [hfs.2.2 t htP htid hnot]

theorem runTxn_no_commit (ops : List TxOp) :
    ∀ (committed pending : Store), (∀ t ∈ ops, t ≠ TxOp.commit) →
      runTxn committed pending ops = committed := by
  induction ops with
  | nil => intro committed pending _; rfl
  | cons t rest ih =>
    intro committed pending h
    cases t with
    | commit => exact absurd rfl (h TxOp.commit (by simp))
    | exec op =>
      simp only [runTxn]
      cases applySqlOp pending op with
      | ok p2 => exact ih committed p2 (fun t ht => h t (by simp [ht]))
      | error e => rfl

theorem mergeTrace_shape (st : Store) (records : List Rec) (source : Str) (now : Nat) :
    mergeTrace st records source now = [] ∨
    ∃ (E : List TxOp), mergeTrace st records source now = E ++ [TxOp.commit] ∧
      ∀ t ∈ E, t ≠ TxOp.commit := by
  unfold mergeTrace
  by_cases hrec : records = []
  · rw [if_pos hrec]
    exact Or.inl rfl
  · rw [if_neg hrec]
    cases hprep : prepareLoop records with
    | error e => exact Or.inl rfl
    | ok pr =>
      obtain ⟨P, ign⟩ := pr
      dsimp only
      by_cases hP : P = []
      · rw [if_pos hP]
        exact Or.inl rfl
      · rw [if_neg hP]
        rcases hm : mergeLoop (buildExisting st (chunked 499 (P.map (fun p => p.2.1))))
            source now P 0 with ⟨A, D, us, ins⟩
        rw [hm]
        dsimp only
        refine Or.inr ⟨(us.map (fun u => TxOp.exec (SqlOp.updateSources u.1 u.2))) ++
          (if ins = [] then [] else [TxOp.exec (SqlOp.insertMany ins)]), by
            rw [List.append_assoc], ?_⟩
        intro t ht
        rcases List.mem_append.mp ht with hu | hi
        · obtain ⟨u, -, hval⟩ := List.mem_map.mp hu
          rw [← hval]
          simp
        · by_cases hins : ins = []
          · rw [hins] at hi
            simp at hi
          · rw [if_neg hins] at hi
            simp at hi
            rw [hi]
            simp

theorem visible_take_front (st : Store) (records : List Rec) (source : Str) (now : Nat) :
    ∀ k, k < (mergeTrace st records source now).length →
      visible st ((mergeTrace st records source now).take k) = st := by
  intro k hk
  rcases mergeTrace_shape st records source now with hnil | ⟨E, hEq, hE⟩
  · rw [hnil, List.take_nil]
    rfl
  · rw [hEq] at hk ⊢
    have hkE : k ≤ E.length := by
      simp at hk
      omega
    rw [List.take_append_eq_append_take]
    have h2 : k - E.length = 0 := by omega
    rw [h2]
    simp only [List.take_zero, List.append_nil]
    apply runTxn_no_commit
    intro t ht
    exact hE t (List.mem_of_mem_take ht)

theorem runTxn_updates :
    ∀ (us : List (Str × List Str)) (committed pending : Store) (rest : List TxOp),
      runTxn committed pending
        ((us.map (fun u => TxOp.exec (SqlOp.updateSources u.1 u.2))) ++ rest) =
      runTxn committed (applyUpdates pending us) rest := by
  intro us
  induction us with
  | nil => intro committed pending rest; rfl
  | cons u us ih =>
    intro committed pending rest
    obtain ⟨key, srcs⟩ := u
    simp only [List.map_cons, List.cons_append, runTxn, applySqlOp]
    exact ih committed _ rest

theorem visible_full_run (st : Store) (records : List Rec) (source : Str) (now : Nat)
    (st2 : Store) (a d ign : Nat)
    (h : insert_records st records source now = Except.ok (st2, a, d, ign)) :
    visible st (mergeTrace st records source now) = st2 := by
  rcases insert_records_inv st records source now st2 a d ign h with
    ⟨hrec, hst, -, -, -⟩ | ⟨hrec, P, us, ins, hprep, hcase⟩
  · subst hrec
    subst hst
    rfl
  · rcases hcase with ⟨hP, hst, -, -⟩ | ⟨hP, hml, hins⟩
    · subst hP
      subst hst
      unfold mergeTrace
      rw [if_neg hrec, hprep]
      rfl
    · unfold mergeTrace
      rw [if_neg hrec, hprep]
      simp only
      rw [if_neg hP, hml]
      simp only
      unfold visible
      rw [List.append_assoc]
      rw [runTxn_updates us st st]
      by_cases hi : ins = []
      · subst hi
        rw [if_pos rfl]
        have hst2 : st2 = applyUpdates st us := by
          have := applyInserts_ok_eq [] _ st2 hins
          simpa using this
        rw [hst2]
        rfl
      · rw [if_neg hi]
        simp only [runTxn, applySqlOp]
        rw [hins]

/-- Claim C8: the statement trace of one merge call commits only as its
very last event, so an execution cut off at any earlier point (a fatal
storage failure) leaves the visible store exactly as it was before the
call, while a completed call publishes exactly the store the call
returns. -/
theorem claim_C8_atomic (st : Store) (records : List Rec) (source : Str) (now : Nat) :
    (∀ k, k < (mergeTrace st records source now).length →
      visible st ((mergeTrace st records source now).take k) = st) ∧
    (∀ (st2 : Store) (a d ign : Nat),
      insert_records st records source now = Except.ok (st2, a, d, ign) →
      visible st (mergeTrace st records source now) = st2) :=
  ⟨visible_take_front st records source now,
   fun st2 a d ign h => visible_full_run st records source now st2 a d ign h⟩

/-- Claim C1, as stated, fails on the code: with one batch record already
stored, the first call returns added 1 and duplicate 1, and the second
call returns duplicate 2, not the first call's added count 1. -/
theorem claim_C1_counterexample :
    insert_records [row7A] [rec7, rec7b] (str ("A")) 10 = Except.ok (stC1, 1, 1, 0) ∧
    insert_records stC1 [rec7, rec7b] (str ("A")) 20 = Except.ok (stC1, 0, 2, 0) ∧
    (2 : Nat) ≠ 1 :=
  ⟨rfl, rfl, by decide⟩

theorem claim_C1_witness :
    insert_records stC1 [rec7, rec7b] (str ("A")) 20 = Except.ok (stC1, 0, 1 + 1, 0) :=
  claim_C1_amended [row7A] [rec7, rec7b] (str ("A")) 10 20 stC1 1 1 0 (by simp [StoreWF]) rfl

theorem claim_C2_witness :
    1 = [recIgn].countP isIgnoredRec ∧
    0 + 0 = [recIgn].countP (fun r => (keptTriple r).isSome) ∧
    (∀ row ∈ ([] : Store), row.id ∈ ([] : Store).map Row.id ∨
      ∃ r ∈ [recIgn], ∃ t, keptTriple r = some t ∧ t.2.1 = row.id) :=
  claim_C2_ignored [] [recIgn] (str ("B")) 0 [] 0 0 1 rfl

theorem claim_C3_witness :
    str ("2023-05-01") ≠ [] ∧
    str ("2023-05-01") = (pyStrip (str ("2023-05-01"))).take 10 ∧
    (str ("2023-05-01")).length = 10 ∧
    (str ("2023-05-01")).count '-' = 2 ∧
    ((str ("2023-05-01")).takeWhile (fun ch => !decide (ch = '-'))).length = 4 :=
  (claim_C3_amended.1 (str ("2023-05-01")) (str ("2023-05-01"))).mp rfl

theorem claim_C6_witness :
    1 ≤ (50 : Int) ∧ (50 : Int) ≤ 200 ∧ (some (50 : Int) = none → (50 : Int) = 20) ∧
    1 ≤ (3 : Int) ∧ ((101 : Nat) = 0 → (3 : Int) = 1) ∧
    (0 < (101 : Nat) → (3 : Int) ≤ (((101 : Nat) : Int) + 50 - 1) / 50) :=
  claim_C6_pagination.1 (some 5) (some 50) 101 3 50 3 rfl

theorem claim_C7_witness :
    ∀ row ∈ [row7A], ∃ row2 ∈ [row7AB],
      row2.id = row.id ∧ row2.EmpRUC = row.EmpRUC ∧
      row2.EmpRazonSocial = row.EmpRazonSocial ∧ row2.EmpNom = row.EmpNom ∧
      row2.RepFecha = row.RepFecha ∧ row2.RepFechaDate = row.RepFechaDate ∧
      row2.RepLiqEstadoConsulta = row.RepLiqEstadoConsulta ∧
      row2.RepDetalleRechazo = row.RepDetalleRechazo ∧
      row2.detail_normalized = row.detail_normalized ∧
      row2.resolved = row.resolved ∧ row2.created_at = row.created_at ∧
      ((¬ ∃ r ∈ [rec7], ∃ t, keptTriple r = some t ∧ t.2.1 = row.id) →
        row2.sources = row.sources) ∧
      (str ("B") ∈ row.sources → row2.sources = row.sources) ∧
      (∀ r ∈ [rec7], ∀ t, keptTriple r = some t → t.2.1 = row.id →
        str ("B") ∉ row.sources → row2.sources = row.sources ++ [str ("B")]) :=
  claim_C7_frame.1 [row7A] [rec7] (str ("B")) 99 [row7AB] 0 1 0 (by simp [StoreWF]) rfl

theorem claim_C8_witness :
    visible [] ((mergeTrace [] [rec7] (str ("A")) 0).take 1) = [] ∧
    visible [] (mergeTrace [] [rec7] (str ("A")) 0) = [row7A] :=
  ⟨(claim_C8_atomic [] [rec7] (str ("A")) 0).1 1 (by decide),
   (claim_C8_atomic [] [rec7] (str ("A")) 0).2 [row7A] 1 0 0 rfl⟩

theorem claim_C9_witness :
    fix_text rowW.EmpRUC = Except.ok payW.EmpRUC ∧
    fix_text rowW.EmpRazonSocial = Except.ok payW.EmpRazonSocial ∧
    fix_text rowW.EmpNom = Except.ok payW.EmpNom ∧
    fix_text rowW.RepFecha = Except.ok payW.RepFecha ∧
    fix_text rowW.RepLiqEstadoConsulta = Except.ok payW.RepLiqEstadoConsulta ∧
    fix_text rowW.RepDetalleRechazo = Except.ok payW.RepDetalleRechazo ∧
    rowW.sources.mapM fix_text = Except.ok payW.sources ∧
    payW.id = rowW.id ∧ payW.resolved = rowW.resolved ∧ payW.rep_date = rowW.RepFechaDate :=
  claim_C9_repair_on_read rowW payW rfl

theorem claim_C10_witness :
    1 + 1 + 0 = ([rec7, rec7b] : List Rec).length :=
  claim_C10_counts.2.2 [row7A] [rec7, rec7b] (str ("A")) 10 stC1 1 1 0 rfl
